import Mathlib

/-!
Verification development for the `bytecode` repository.

Part 1 models `src/bytecode.py`: a flat-encoding assembler/disassembler over
basic blocks (`Instr`, `Block`, `Code`, `Code.disassemble`, `Code.assemble`,
`Code.create_label`, the `lnotab` line-number side table).

Part 2 models `src/src/bytecode/instr.py`: operand validation
(`check_arg`), in-place mutation (`set_impl` and the property setters),
and the stack-effect computations (`stack_effect`,
`pre_and_post_stack_effect` with the static and dynamic effect tables).

The instruction-set description (Python's `opcode` module: `opmap`,
`opname`, `HAVE_ARGUMENT`, `hasjrel`, `hasjabs`, ...) is an external input
of the program; it is modelled as an explicit structure (`OpDesc`,
`OpTables`) passed to every operation.  Python `bytes` values are modelled
as `List Nat` with every element below 256; Python exceptions
(`KeyError`, `IndexError`, `ValueError`, `struct.error`, failing
`assert`) are modelled by `Option`/`Except` results.  Instruction names
and numeric opcodes are in bijection through the external `opmap`, so the
Part-1 model carries the numeric opcode in place of the name.
-/

namespace Bytecode

/-- External instruction-set description used by `src/bytecode.py`
(the fields of Python's `opcode` module that the file reads, plus
`EXTENDED_ARG`, the extended-operand prefix opcode). -/
structure OpDesc where
  haveArgument : Nat
  hasjrel : List Nat
  hasjabs : List Nat
  extendedArg : Nat
deriving DecidableEq, Repr

/-- An instruction operand: either a raw integer or a `Label` reference.
Labels are identity-only markers; identity is modelled by a `Nat` key. -/
inductive RawArg where
  | intArg (n : Int)
  | labelArg (l : Nat)
deriving DecidableEq, Repr

/-- One instruction of `src/bytecode.py`: line number, numeric opcode
(standing for the name via the external `opmap` bijection) and optional
operand (`None` is `Option.none`). -/
structure Instr where
  lineno : Int
  op : Nat
  arg : Option RawArg
deriving DecidableEq, Repr

/-- Size in bytes: `3 if arg is not None else 1` (`Instr.__init__`). -/
def Instr.size (i : Instr) : Nat :=
  if i.arg.isSome then 3 else 1

/-- `Instr.get_jump_target`: raises (`.error`) on a `Label` operand, or —
for relative/absolute jump opcodes — on a missing operand (Python would
raise `TypeError` adding `None`); returns `none` for non-jump opcodes. -/
def Instr.get_jump_target (d : OpDesc) (i : Instr) (off : Nat) :
    Except Unit (Option Int) :=
  match i.arg with
  | some (.labelArg _) => .error ()
  | _ =>
    if i.op ∈ d.hasjrel then
      match i.arg with
      | some (.intArg n) => .ok (some ((off : Int) + i.size + n))
      | _ => .error ()
    else if i.op ∈ d.hasjabs then
      match i.arg with
      | some (.intArg n) => .ok (some n)
      | _ => .error ()
    else .ok none

/-- `Instr.replace_arg`: same name and lineno, new operand. -/
def Instr.replace_arg (i : Instr) (a : Option RawArg) : Instr :=
  { i with arg := a }

/-- `Instr.assemble`: `struct.pack('<BH', op, arg)` for a present operand
(little endian: low byte first), `struct.pack('<B', op)` otherwise.
`struct.pack` raises on a `Label` operand, an opcode above 255 or an
operand outside `0..65535`; those cases return `none`. -/
def Instr.assemble (i : Instr) : Option (List Nat) :=
  match i.arg with
  | some (.intArg n) =>
      if 0 ≤ n ∧ n ≤ 65535 ∧ i.op ≤ 255 then
        some [i.op, n.toNat % 256, n.toNat / 256]
      else none
  | some (.labelArg _) => none
  | none => if i.op ≤ 255 then some [i.op] else none

/-- A basic block: a unique `Label` (a `Nat` key) plus the instruction
list (`Block` subclasses `list` and owns `self.label = Label()`). -/
structure Block where
  label : Nat
  instrs : List Instr
deriving DecidableEq, Repr

/-- The `Code` container: the ordered block list.  The label→block map of
the source is recovered by lookup over `blocks`; `nextLabel` models the
supply of fresh `Label()` identities (every existing label is below it in
a well-formed `Code`).  The `code_obj` metadata that `assemble` passes
through unchanged (consts, flags, names, ...) is not modelled; the one
field the modelled operations read, `co_firstlineno`, is passed
explicitly. -/
structure Code where
  blocks : List Block
  nextLabel : Nat
deriving DecidableEq, Repr

/-- Decode one instruction (`Instr.disassemble`): `op` is the byte at the
current offset and `rest` the bytes after it; an operand is read (little
endian, `code[offset+1] + code[offset+2]*256`) exactly when
`op >= HAVE_ARGUMENT`.  Returns the instruction together with the bytes
following it; `none` models the `IndexError` of reading past the end. -/
def Instr.disassemble (d : OpDesc) (lineno : Int) (op : Nat) (rest : List Nat) :
    Option (Instr × List Nat) :=
  if d.haveArgument ≤ op then
    match rest with
    | b1 :: b2 :: rest' =>
        some (⟨lineno, op, some (.intArg ((b1 : Int) + b2 * 256))⟩, rest')
    | _ => none
  else
    some (⟨lineno, op, none⟩, rest)

/-- The linear scan of `Code.disassemble` (the `while offset < len(code)`
loop): decodes instructions in order, tracks the current line with the
sparse `line_starts` table (an instruction decoded at an offset present in
the table carries — and subsequent ones inherit — that line), and collects
every jump target as a block-start candidate.  The byte list argument is
the not-yet-decoded suffix `code[offset:]`, so the loop is structural
recursion; `off` is the current offset. -/
def scanGo (d : OpDesc) (ls : Nat → Option Int) :
    List Nat → Nat → Int → Option (List Instr × List Int)
  | [], _, _ => some ([], [])
  | op :: restBytes, off, lineno =>
    let line := match ls off with
      | some l => l
      | none => lineno
    if d.haveArgument ≤ op then
      match restBytes with
      | b1 :: b2 :: rest' =>
        let i : Instr := ⟨line, op, some (.intArg ((b1 : Int) + b2 * 256))⟩
        match i.get_jump_target d off with
        | .error _ => none
        | .ok t =>
          match scanGo d ls rest' (off + i.size) line with
          | none => none
          | some (is, ts) => some (i :: is, t.toList ++ ts)
      | _ => none
    else
      let i : Instr := ⟨line, op, none⟩
      match i.get_jump_target d off with
      | .error _ => none
      | .ok t =>
        match scanGo d ls restBytes (off + i.size) line with
        | none => none
        | some (is, ts) => some (i :: is, t.toList ++ ts)

/-- The block-splitting loop of `Code.disassemble`: walk the decoded
instructions with their offsets, starting a new block whenever a nonzero
offset is a block-start candidate; `cur` is the block currently being
filled (`block.append(instr)`). -/
def groupGo (starts : List Int) :
    List Instr → Nat → List Instr → List (List Instr)
  | [], _, cur => [cur]
  | i :: is, off, cur =>
    if off ≠ 0 ∧ (off : Int) ∈ starts then
      cur :: groupGo starts is (off + i.size) [i]
    else
      groupGo starts is (off + i.size) (cur ++ [i])

/-- The `block_map` built during block splitting: each block's start
offset mapped to its label; blocks are created in list order, so labels
are consecutive from `k`. -/
def blockMapGo : List (List Instr) → Nat → Nat → List (Int × Nat)
  | [], _, _ => []
  | g :: gs, off, k =>
      ((off : Int), k) :: blockMapGo gs (g.foldl (fun o i => o + i.size) off) (k + 1)

/-- The jump-rewriting loop of `Code.disassemble` over one block: each
instruction with a concrete jump target has its operand replaced by the
label of the block starting at that offset (`block_map[target]`;
a missing key is a `KeyError`, hence `none`). -/
def rewriteInstrs (d : OpDesc) (bmap : List (Int × Nat)) :
    List Instr → Nat → Option (List Instr × Nat)
  | [], off => some ([], off)
  | i :: is, off =>
    match i.get_jump_target d off with
    | .error _ => none
    | .ok none =>
      match rewriteInstrs d bmap is (off + i.size) with
      | none => none
      | some (is', fin) => some (i :: is', fin)
    | .ok (some t) =>
      match bmap.lookup t with
      | none => none
      | some lbl =>
        match rewriteInstrs d bmap is (off + i.size) with
        | none => none
        | some (is', fin) =>
            some (i.replace_arg (some (.labelArg lbl)) :: is', fin)

/-- Jump rewriting over all blocks, threading the running offset. -/
def rewriteBlocks (d : OpDesc) (bmap : List (Int × Nat)) :
    List Block → Nat → Option (List Block)
  | [], _ => some []
  | b :: bs, off =>
    match rewriteInstrs d bmap b.instrs off with
    | none => none
    | some (is', fin) =>
      match rewriteBlocks d bmap bs fin with
      | none => none
      | some bs' => some (Block.mk b.label is' :: bs')

/-- `Code.disassemble`: scan, split into blocks (fresh labels in creation
order, i.e. `0, 1, 2, ...`), reject an empty final block (the
`assert len(block) != 0`), then rewrite jump targets to labels.
`ls` is the external `dis.findlinestarts(code_obj)` table and
`firstlineno` is `code_obj.co_firstlineno`. -/
def Code.disassemble (d : OpDesc) (code : List Nat) (firstlineno : Int)
    (ls : Nat → Option Int) : Option Code :=
  match scanGo d ls code 0 firstlineno with
  | none => none
  | some (instrs, starts) =>
    let groups := groupGo starts instrs 0 []
    if (groups.getLastD []).isEmpty then none
    else
      let blocks := groups.enum.map fun p => Block.mk p.1 p.2
      let bmap := blockMapGo groups 0 0
      match rewriteBlocks d bmap blocks 0 with
      | none => none
      | some blocks' => some ⟨blocks', groups.length⟩

/-- The inner loop of `Code.assemble`'s first pass: advance the offset by
each instruction's size. -/
def offAfter (off : Nat) (is : List Instr) : Nat :=
  is.foldl (fun o i => o + i.size) off

/-- The first pass of `Code.assemble`: record each label's tentative
offset.  Entries are prepended so that `List.lookup` returns the most
recent assignment, matching Python dict overwrite semantics. -/
def targetsGo : List Block → Nat → List (Nat × Nat) → List (Nat × Nat)
  | [], _, acc => acc
  | b :: bs, off, acc => targetsGo bs (offAfter off b.instrs) ((b.label, off) :: acc)

/-- The operand-resolution step of `Code.assemble`'s second pass: a
`Label` operand is replaced by the target's offset, made relative
(`target - (offset + size)`) for `hasjrel` opcodes; a missing label is a
`KeyError`.  Non-label operands pass through unchanged. -/
def resolveInstr (d : OpDesc) (tgts : List (Nat × Nat)) (off : Nat) (i : Instr) :
    Option Instr :=
  match i.arg with
  | some (.labelArg l) =>
    match tgts.lookup l with
    | none => none
    | some t =>
      let t' : Int := if i.op ∈ d.hasjrel then (t : Int) - ((off : Int) + i.size) else t
      some (i.replace_arg (some (.intArg t')))
  | _ => some i

/-- The second pass of `Code.assemble` over one block's instructions:
resolve, emit bytes, record `(offset, lineno)`; returns the bytes, the
`linenos` entries and the final offset. -/
def emitInstrs (d : OpDesc) (tgts : List (Nat × Nat)) :
    List Instr → Nat → Option (List Nat × List (Nat × Int) × Nat)
  | [], off => some ([], [], off)
  | i :: is, off =>
    match resolveInstr d tgts off i with
    | none => none
    | some r =>
      match r.assemble with
      | none => none
      | some bs =>
        match emitInstrs d tgts is (off + r.size) with
        | none => none
        | some (code, lns, fin) => some (bs ++ code, (off, r.lineno) :: lns, fin)

/-- The second pass of `Code.assemble` over all blocks, threading the
running offset. -/
def emitBlocks (d : OpDesc) (tgts : List (Nat × Nat)) :
    List Block → Nat → Option (List Nat × List (Nat × Int))
  | [], _ => some ([], [])
  | b :: bs, off =>
    match emitInstrs d tgts b.instrs off with
    | none => none
    | some (code, lns, fin) =>
      match emitBlocks d tgts bs fin with
      | none => none
      | some (code2, lns2) => some (code ++ code2, lns ++ lns2)

/-- The `while doff > 255` loop of `Code.assemble`: emits the literal
`b'\xff0'` — the two bytes 255 and 48 (the character `'0'`) — per chunk
and returns the bytes together with the remaining `doff`. -/
def fillOff (doff : Int) : List Nat × Int :=
  if doff > 255 then
    let (bs, r) := fillOff (doff - 255)
    (255 :: 48 :: bs, r)
  else ([], doff)
termination_by doff.toNat
decreasing_by
  simp_wf
  omega

/-- The `while dlineno < -127` loop: emits `struct.pack('Bb', 0, -127)`
(bytes 0 and 129) per chunk; `dlineno -= -127` adds 127. -/
def fillNeg (dl : Int) : List Nat × Int :=
  if dl < -127 then
    let (bs, r) := fillNeg (dl + 127)
    (0 :: 129 :: bs, r)
  else ([], dl)
termination_by (-dl).toNat
decreasing_by
  simp_wf
  omega

/-- The `while dlineno > 126` loop: emits `struct.pack('Bb', 0, 126)` per
chunk. -/
def fillPos (dl : Int) : List Nat × Int :=
  if dl > 126 then
    let (bs, r) := fillPos (dl - 126)
    (0 :: 126 :: bs, r)
  else ([], dl)
termination_by dl.toNat
decreasing_by
  simp_wf
  omega

/-- One iteration of the `lnotab` loop body of `Code.assemble` for the
transition to `(offset, lineno)`: split oversized deltas, check the
asserts, then emit `struct.pack('Bb', doff, dlineno)` unless both deltas
are zero.  The signed byte is stored two's-complement (`x.emod 256`). -/
def lnotabEntry (oldOff : Nat) (oldLine : Int) (off : Nat) (line : Int) :
    Option (List Nat) :=
  let (bs1, doff) := fillOff ((off : Int) - oldOff)
  let (bs2, dl1) := fillNeg (line - oldLine)
  let (bs3, dl) := fillPos dl1
  if 0 ≤ doff ∧ doff ≤ 255 ∧ -127 ≤ dl ∧ dl ≤ 126 then
    some (bs1 ++ bs2 ++ bs3 ++
      (if doff ≠ 0 ∨ dl ≠ 0 then [doff.toNat, (dl.emod 256).toNat] else []))
  else none

/-- The `lnotab` construction loop of `Code.assemble`, folding over the
recorded `(offset, lineno)` pairs starting from offset 0 and
`co_firstlineno`.  A failing `assert` yields `none`. -/
def makeLnotabGo : List (Nat × Int) → Nat → Int → Option (List Nat)
  | [], _, _ => some []
  | (off, line) :: rest, oldOff, oldLine =>
    match lnotabEntry oldOff oldLine off line with
    | none => none
    | some bs =>
      match makeLnotabGo rest off line with
      | none => none
      | some bs2 => some (bs ++ bs2)

/-- The complete `lnotab` side table for the `linenos` list collected by
`Code.assemble`. -/
def makeLnotab (firstlineno : Int) (linenos : List (Nat × Int)) : Option (List Nat) :=
  makeLnotabGo linenos 0 firstlineno

/-- `Code.assemble`: first pass computes label offsets, second pass
resolves operands and emits the flat byte stream plus the `linenos`
pairs, then the `lnotab` side table is delta-encoded from them.
Returns `(co_code bytes, lnotab bytes)`. -/
def Code.assemble (d : OpDesc) (c : Code) (firstlineno : Int) :
    Option (List Nat × List Nat) :=
  let tgts := targetsGo c.blocks 0 []
  match emitBlocks d tgts c.blocks 0 with
  | none => none
  | some (code, lns) =>
    match makeLnotab firstlineno lns with
    | none => none
    | some tab => some (code, tab)

/-- Reference to a block, as accepted by `Code.create_label`: a `Label`
or a (possibly negative) list index. -/
inductive BlockRef where
  | byLabel (l : Nat)
  | byIndex (n : Int)
deriving DecidableEq, Repr

/-- `Code.create_label` (block splitting).  A `Label` reference is
resolved through the label map and then located with
`self._blocks.index(block)`, i.e. the position of the FIRST block that
compares equal — `Block` inherits list equality, so this is the first
block with an equal instruction list.  Splitting at 0 returns the found
block's existing label; otherwise the suffix from `index` becomes a new
block with a fresh label inserted right after, and the original is
truncated.  All raised exceptions (`ValueError`, `KeyError`,
`IndexError`, splitting at or past the end) yield `none`. -/
def Code.create_label (c : Code) (ref : BlockRef) (index : Int) :
    Option (Nat × Code) :=
  let bi? : Option Nat :=
    match ref with
    | .byLabel l =>
      match c.blocks.find? (fun b => b.label == l) with
      | none => none
      | some blk => c.blocks.findIdx? (fun b => b.instrs == blk.instrs)
    | .byIndex n => if n < 0 then none else some n.toNat
  match bi? with
  | none => none
  | some bi =>
    if index < 0 then none
    else
      match c.blocks[bi]? with
      | none => none
      | some blk =>
        if index = 0 then some (blk.label, c)
        else
          let instructions := blk.instrs.drop index.toNat
          if instructions.isEmpty then none
          else
            let block2 : Block := ⟨c.nextLabel, instructions⟩
            let blocks' :=
              ((c.blocks.set bi ⟨blk.label, blk.instrs.take index.toNat⟩).insertIdx
                (bi + 1) block2)
            some (block2.label, ⟨blocks', c.nextLabel + 1⟩)

/-- All instructions of a `Code` in block order. -/
def flatInstrs (c : Code) : List Instr :=
  (c.blocks.map Block.instrs).flatten

/-- Decoder of the `lnotab` side table, modelling the external consumer
`dis.findlinestarts` (CPython `Lib/dis.py`, 3.6/3.7): walk the table two
bytes at a time; a nonzero offset increment first yields `(addr, lineno)`
when the line changed, then advances `addr`; the line increment is a
signed byte (`>= 0x80` means negative); a final changed line is yielded
at the end.  `last` is the last yielded line (`None` initially). -/
def findlinestartsGo : List Nat → Nat → Int → Option Int → List (Nat × Int)
  | b :: l :: rest, addr, lineno, last =>
    let li : Int := if 128 ≤ l then (l : Int) - 256 else l
    if b ≠ 0 then
      if last ≠ some lineno then
        (addr, lineno) :: findlinestartsGo rest (addr + b) (lineno + li) (some lineno)
      else
        findlinestartsGo rest (addr + b) (lineno + li) last
    else
      findlinestartsGo rest addr (lineno + li) last
  | _, addr, lineno, last =>
    if last ≠ some lineno then [(addr, lineno)] else []

/-- The `(offset, line)` pairs `dis.findlinestarts` produces for a
`lnotab` table and a starting line. -/
def findlinestarts (lnotab : List Nat) (firstlineno : Int) : List (Nat × Int) :=
  findlinestartsGo lnotab 0 firstlineno none

/-- The sparse offset→line change points of a `linenos` list: the pairs
whose line differs from the previous pair's line (the first pair counts
as a change iff it differs from `firstlineno` — matching what a correct
delta encoding must let the decoder reproduce, alongside the change
point at offset 0 when the first instruction keeps `firstlineno`). -/
def lineChangePoints : List (Nat × Int) → Option Int → List (Nat × Int)
  | [], _ => []
  | (off, line) :: rest, last =>
    if last ≠ some line then (off, line) :: lineChangePoints rest (some line)
    else lineChangePoints rest (some line)

/-! Analysis apparatus for the round-trip theorem: erased instruction
shapes, layout offsets, and the well-formedness predicate under which a
graph assembles and round-trips. -/

/-- The components of an instruction that determine its encoded bytes:
opcode and operand (the line number only feeds the side table). -/
def strip (i : Instr) : Nat × Option RawArg :=
  (i.op, i.arg)

/-- Total byte size of an instruction list. -/
def sizeSum (is : List Instr) : Nat :=
  (is.map Instr.size).sum

/-- All instructions of a block list in order. -/
def flattenBlocks (bs : List Block) : List Instr :=
  (bs.map Block.instrs).flatten

/-- Whether an opcode is a relative or absolute jump. -/
def isJumpOp (d : OpDesc) (op : Nat) : Prop :=
  op ∈ d.hasjrel ∨ op ∈ d.hasjabs

instance (d : OpDesc) (op : Nat) : Decidable (isJumpOp d op) := by
  unfold isJumpOp
  infer_instance

/-- The operand is a `Label` reference into the given label list. -/
def labelInto (labs : List Nat) : Option RawArg → Prop
  | some (.labelArg l) => l ∈ labs
  | _ => False

instance (labs : List Nat) (a : Option RawArg) : Decidable (labelInto labs a) := by
  unfold labelInto
  rcases a with - | (n | l) <;> infer_instance

/-- The operand is not a `Label` reference. -/
def noLabel : Option RawArg → Prop
  | some (.labelArg _) => False
  | _ => True

instance (a : Option RawArg) : Decidable (noLabel a) := by
  unfold noLabel
  rcases a with - | (n | l) <;> infer_instance

/-- Well-formedness of a graph for assembly and round-trip: at least one
block, no empty block, distinct labels, an operand exactly on opcodes at
or above `HAVE_ARGUMENT`, `Label` operands exactly on jump opcodes, and
each such label attached to a block of the graph. -/
def ValidGraph (d : OpDesc) (c : Code) : Prop :=
  c.blocks ≠ [] ∧
  (∀ b ∈ c.blocks, b.instrs ≠ []) ∧
  (c.blocks.map Block.label).Nodup ∧
  (∀ b ∈ c.blocks, ∀ i ∈ b.instrs,
    (i.arg.isSome ↔ d.haveArgument ≤ i.op) ∧
    (isJumpOp d i.op → labelInto (c.blocks.map Block.label) i.arg) ∧
    (¬ isJumpOp d i.op → noLabel i.arg))

instance (d : OpDesc) (c : Code) : Decidable (ValidGraph d c) := by
  unfold ValidGraph
  infer_instance

/-- The byte offset of every instruction of the list, starting at
`off`. -/
def offsetsOf : List Instr → Nat → List Nat
  | [], _ => []
  | i :: is, off => off :: offsetsOf is (off + i.size)

/-- The `(label, start offset)` pairs of a block list laid out from
`off` — the graph-side view of `Code.assemble`'s first pass. -/
def blockOffsets : List Block → Nat → List (Nat × Nat)
  | [], _ => []
  | b :: bs, off => (b.label, off) :: blockOffsets bs (off + sizeSum b.instrs)

/-- The jump targets collected from an instruction list with its
offsets, as the scan loop collects them. -/
def tsOf (d : OpDesc) : List Instr → Nat → List Int
  | [], _ => []
  | i :: is, off =>
    (match i.get_jump_target d off with
      | .ok (some t) => [t]
      | _ => []) ++ tsOf d is (off + i.size)

/-- Operand resolution (`Code.assemble`'s second pass) over a list,
threading the offset exactly as the emit loop does. -/
def resolveList (d : OpDesc) (tgts : List (Nat × Nat)) :
    List Instr → Nat → Option (List Instr)
  | [], _ => some []
  | i :: is, off =>
    match resolveInstr d tgts off i with
    | none => none
    | some r =>
      match resolveList d tgts is (off + r.size) with
      | none => none
      | some rs => some (r :: rs)

/-- Byte encoding of an already-resolved instruction list. -/
def reEnc : List Instr → Option (List Nat)
  | [] => some []
  | i :: is =>
    match i.assemble with
    | none => none
    | some bs =>
      match reEnc is with
      | none => none
      | some rest => some (bs ++ rest)

/-- The split points the block-partition loop creates after the first
block: one entry per nonzero boundary offset that is a block-start
candidate, numbering blocks from `k`. -/
def splitsOf (starts : List Int) : List Instr → Nat → Nat → List (Int × Nat)
  | [], _, _ => []
  | i :: is, off, k =>
    if off ≠ 0 ∧ (off : Int) ∈ starts then
      ((off : Int), k) :: splitsOf starts is (off + i.size) (k + 1)
    else splitsOf starts is (off + i.size) k

/-! Concrete instances used by witnesses, counterexamples and
failing-input evaluations. -/

/-- An empty `line_starts` table. -/
def lsNone : Nat → Option Int := fun _ => none

/-- An instruction-set description with CPython 3.5's jump sets and
`HAVE_ARGUMENT = 90`, `EXTENDED_ARG = 144`. -/
def descStd : OpDesc :=
  ⟨90, [93, 110, 120, 121, 122, 143], [111, 112, 113, 114, 115, 119], 144⟩

/-- The spec's example description: opcode `J` is 10 and is a relative
jump; every opcode from 1 up takes an operand. -/
def descC2 : OpDesc := ⟨1, [10], [], 144⟩

/-- A one-byte no-operand instruction for `descC2`. -/
def nopC2 : Instr := ⟨1, 0, none⟩

/-- The spec's example graph: `J` (size 3) at offset 0 jumping to the
block at offset 40 (after 37 one-byte fillers). -/
def gC2 : Code :=
  ⟨[⟨0, ⟨1, 10, some (.labelArg 1)⟩ :: List.replicate 37 nopC2⟩, ⟨1, [nopC2]⟩], 2⟩

/-- Failing input for the line-table round trip: two one-byte
instructions, the first on line 1 (the first line), the second on
line 300 (a +299 jump, beyond the +126 per-entry range). -/
def gC4 : Code := ⟨[⟨0, [⟨1, 9, none⟩, ⟨300, 9, none⟩]⟩], 1⟩

/-- `NOP` at line 1. -/
def nopI : Instr := ⟨1, 9, none⟩

/-- `RETURN_VALUE` at line 1. -/
def retI : Instr := ⟨1, 83, none⟩

/-- Two blocks with byte-for-byte equal instruction lists but distinct
labels. -/
def gDup : Code := ⟨[⟨0, [nopI, retI]⟩, ⟨1, [nopI, retI]⟩], 2⟩

/-- What `create_label` actually produces when the second duplicate
block of `gDup` is addressed by its label with split index 1: the FIRST
block is split and the new block (label 2) sits at position 1, before
the addressed block. -/
def gDupSplit : Code :=
  ⟨[⟨0, [nopI]⟩, ⟨2, [retI]⟩, ⟨1, [nopI, retI]⟩], 3⟩

/-- Two single-instruction duplicate blocks, for the index-0 case. -/
def gDup1 : Code := ⟨[⟨0, [nopI]⟩, ⟨1, [nopI]⟩], 2⟩

/-- Round-trip witness graph: an absolute jump to the second block. -/
def gW : Code :=
  ⟨[⟨0, [⟨1, 113, some (.labelArg 1)⟩]⟩, ⟨1, [⟨1, 83, none⟩]⟩], 2⟩

end Bytecode

deriving instance DecidableEq for Except

namespace InstrPy

/-- Structural prefix test on character lists (kernel-computable). -/
def listBegins : List Char → List Char → Bool
  | [], _ => true
  | _ :: _, [] => false
  | c :: cs, d :: ds => c = d && listBegins cs ds

/-- Python `s.startswith(p)` for the effect-table comprehensions. -/
def strBegins (p s : String) : Bool :=
  listBegins p.data s.data

/-!
Model of `src/src/bytecode/instr.py`.  The external instruction-set
description (Python's `opcode` module), the Python version switch
`sys.version_info >= (3, 11)` and the two branches of the external
`dis.stack_effect` are fields of `OpTables`.
-/

/-- External tables consumed by `instr.py`: the `opcode`-module data, the
version switch, and the per-opcode effect of the external
`dis.stack_effect` for a taken (`effJump`) and not-taken (`effNoJump`)
branch.  `dis.stack_effect` is stdlib code, not repository code; its
`jump=None` behaviour is modelled below from the `dis` documentation. -/
structure OpTables where
  opmap : List (String × Nat)
  haveArgument : Nat
  hasjrel : List Nat
  hasjabs : List Nat
  hasfree : List Nat
  haslocal : List Nat
  hasname : List Nat
  hasconst : List Nat
  hascompare : List Nat
  py311 : Bool
  effJump : Nat → Option Int → Int
  effNoJump : Nat → Option Int → Int

/-- Instruction operand of the high-level `Instr`: the members of the
`InstrArg` union, plus `UNSET` (operand absent) and `other` standing for
any further Python value (allowed only for `hasconst` opcodes).
`Label` and `BasicBlock` identities are `Nat` keys; `Compare` members
are their `IntEnum` values; `tuple` is the `(bool, str)` operand of
`LOAD_GLOBAL` on 3.11+. -/
inductive PyArg where
  | unset
  | int (n : Int)
  | str (s : String)
  | label (l : Nat)
  | block (b : Nat)
  | cellVar (s : String)
  | freeVar (s : String)
  | compare (c : Nat)
  | tuple (b : Bool) (s : String)
  | other
deriving DecidableEq, Repr

/-- Python `isinstance(arg, int)`: `int` itself, `Compare` (an
`IntEnum`) and `_UNSET` (a subclass of `int`) qualify. -/
def PyArg.isInstInt : PyArg → Bool
  | .int _ => true
  | .compare _ => true
  | .unset => true
  | _ => false

/-- The Python `int` value of an operand that `isinstance(arg, int)`
(`_UNSET()` has value 0). -/
def PyArg.intVal : PyArg → Int
  | .int n => n
  | .compare c => c
  | _ => 0

/-- Whether the operand is a `Label` or `BasicBlock`. -/
def PyArg.isLabelOrBlock : PyArg → Bool
  | .label _ => true
  | .block _ => true
  | _ => false

/-- Whether the operand is a `CellVar` or `FreeVar`. -/
def PyArg.isCellOrFree : PyArg → Bool
  | .cellVar _ => true
  | .freeVar _ => true
  | _ => false

/-- Whether the operand is a `str`. -/
def PyArg.isStr : PyArg → Bool
  | .str _ => true
  | _ => false

/-- Whether the operand is a `Compare` member. -/
def PyArg.isCompare : PyArg → Bool
  | .compare _ => true
  | _ => false

/-- Whether the operand is a `(bool, str)` tuple. -/
def PyArg.isBoolStrTuple : PyArg → Bool
  | .tuple _ _ => true
  | _ => false

/-- The high-level instruction: name, numeric opcode, operand.  The
`_location` slot is not modelled; none of the verified operations
(`_set`, the name/opcode/arg setters, the stack-effect methods) read or
write it. -/
structure PyInstr where
  name : String
  opcode : Nat
  arg : PyArg
deriving DecidableEq, Repr

/-- `_check_arg_int`: requires `isinstance(arg, int)` (`TypeError`
otherwise) and `0 <= arg <= 2147483647` (`ValueError` otherwise). -/
def check_arg_int (arg : PyArg) : Except String Unit :=
  if arg.isInstInt then
    if 0 ≤ arg.intVal ∧ arg.intVal ≤ 2147483647 then .ok ()
    else .error "argument must be in the range 0..2,147,483,647"
  else .error "argument must be an int"

/-- Whether the opcode is a jump (`_has_jump`). -/
def hasJump (t : OpTables) (opc : Nat) : Bool :=
  opc ∈ t.hasjrel ∨ opc ∈ t.hasjabs

/-- `Instr._check_arg`: rejects `EXTENDED_ARG`, checks operand arity
against `HAVE_ARGUMENT`, then checks the operand's type against the
opcode's category in the source's `elif` order (jump, free, local/name —
with the 3.11+ `LOAD_GLOBAL` `(bool, str)` special case —, const,
compare, plain bounded int). -/
def check_arg (t : OpTables) (name : String) (opc : Nat) (arg : PyArg) :
    Except String Unit :=
  if name = "EXTENDED_ARG" then
    .error "only concrete instruction can contain EXTENDED_ARG"
  else if t.haveArgument ≤ opc ∧ arg = .unset then
    .error "operation requires an argument"
  else if opc < t.haveArgument ∧ arg ≠ .unset then
    .error "operation has no argument"
  else if hasJump t opc then
    if arg.isLabelOrBlock then .ok ()
    else .error "argument type must be Label or BasicBlock"
  else if opc ∈ t.hasfree then
    if arg.isCellOrFree then .ok ()
    else .error "argument must be CellVar or FreeVar"
  else if opc ∈ t.haslocal ∨ opc ∈ t.hasname then
    if t.py311 ∧ name = "LOAD_GLOBAL" then
      if arg.isBoolStrTuple then .ok ()
      else .error "argument must be a tuple of a bool and a str"
    else
      if arg.isStr then .ok ()
      else .error "argument must be a str"
  else if opc ∈ t.hasconst then
    match arg with
    | .label _ => .error "label argument cannot be used"
    | .block _ => .error "block argument cannot be used"
    | _ => .ok ()
  else if opc ∈ t.hascompare then
    if arg.isCompare then .ok ()
    else .error "argument type must be Compare"
  else if t.haveArgument ≤ opc then
    check_arg_int arg
  else .ok ()

/-- `opcode.opname[op]`: the name mapped to a numeric opcode, when the
external table defines one (otherwise Python holds the `"<op>"`
placeholder, modelled as `none`). -/
def opnameOf (t : OpTables) (op : Nat) : Option String :=
  (t.opmap.find? (fun p => p.2 == op)).map (·.1)

/-- `BaseInstr._set`: look the name up in `opmap` (`ValueError` when
absent), validate with `_check_arg`, and only then assign all three
fields.  The result pairs the (new or untouched) instruction with the
raised error, if any: on an error the original instruction is returned
unchanged, because every check precedes every field assignment. -/
def set_impl (t : OpTables) (i : PyInstr) (name : String) (arg : PyArg) :
    PyInstr × Option String :=
  match t.opmap.lookup name with
  | none => (i, some "invalid operation name")
  | some opc =>
    match check_arg t name opc arg with
    | .error e => (i, some e)
    | .ok _ => (⟨name, opc, arg⟩, none)

/-- Construction (`BaseInstr.__init__` delegating to `_set`). -/
def mkInstr (t : OpTables) (name : String) (arg : PyArg) :
    Except String PyInstr :=
  match set_impl t ⟨"", 0, .unset⟩ name arg with
  | (i, none) => .ok i
  | (_, some e) => .error e

/-- The `set` method: `_set(name, arg)`. -/
def instrSet (t : OpTables) (i : PyInstr) (name : String) (arg : PyArg) :
    PyInstr × Option String :=
  set_impl t i name arg

/-- The `name` property setter: `_set(name, self._arg)`. -/
def nameSetter (t : OpTables) (i : PyInstr) (name : String) :
    PyInstr × Option String :=
  set_impl t i name i.arg

/-- The `arg` property setter: `_set(self._name, arg)`. -/
def argSetter (t : OpTables) (i : PyInstr) (arg : PyArg) :
    PyInstr × Option String :=
  set_impl t i i.name arg

/-- The `opcode` property setter: validate the numeric code (an `int` in
`0..255` with a real name in `opname`), then `_set(name, self._arg)`. -/
def opcodeSetter (t : OpTables) (i : PyInstr) (op : Int) :
    PyInstr × Option String :=
  if 0 ≤ op ∧ op ≤ 255 then
    match opnameOf t op.toNat with
    | some name => set_impl t i name i.arg
    | none => (i, some "invalid operator code")
  else (i, some "invalid operator code")

/-- The external `dis.stack_effect(opcode, oparg, jump=...)`, modelled
from the stdlib `dis` documentation: with `jump=True` the effect of the
taken branch, with `jump=False` the not-taken effect, and with
`jump=None` (the default) the maximal of the two. -/
def dis_stack_effect (t : OpTables) (opc : Nat) (arg : Option Int)
    (jump : Option Bool) : Int :=
  match jump with
  | some true => t.effJump opc arg
  | some false => t.effNoJump opc arg
  | none => max (t.effJump opc arg) (t.effNoJump opc arg)

/-- `BaseInstr.stack_effect`: prepare the numeric argument (none below
`HAVE_ARGUMENT`; the boolean flag for a 3.11 `LOAD_GLOBAL` tuple; `0`
for non-integer or `hasconst` operands; the integer operand otherwise)
and delegate to `dis.stack_effect`. -/
def stack_effect (t : OpTables) (i : PyInstr) (jump : Option Bool) : Int :=
  let arg : Option Int :=
    if i.opcode < t.haveArgument then none
    else if i.name = "LOAD_GLOBAL" ∧ i.arg.isBoolStrTuple then
      some (match i.arg with
            | .tuple b _ => if b then 1 else 0
            | _ => 0)
    else if ¬ i.arg.isInstInt ∨ i.opcode ∈ t.hasconst then some 0
    else some i.arg.intVal
  dis_stack_effect t i.opcode arg jump

/-- `STATIC_STACK_EFFECTS` as a lookup: the comprehension entries for
`UNARY_*` and `BINARY_*`/`INPLACE_*` names present in `opmap` (they
override, being the last entries of the dict literal), then the explicit
keys.  Version-dependent values follow `py311`. -/
def static_stack_effects (t : OpTables) (n : String) : Option (Int × Int) :=
  if strBegins "UNARY_" n ∧ (t.opmap.lookup n).isSome then some (-1, 1)
  else if (strBegins "BINARY_" n ∨ strBegins "INPLACE_" n) ∧
      (t.opmap.lookup n).isSome then some (-2, 1)
  else if n = "CALL" then some (-2, 1)
  else if n = "ROT_TWO" then some (-2, 2)
  else if n = "ROT_THRE" then some (-3, 3)
  else if n = "ROT_FOUR" then some (-4, 4)
  else if n = "DUP_TOP" then some (-1, 2)
  else if n = "DUP_TOP_TWO" then some (-2, 4)
  else if n = "GET_LEN" then some (-1, 2)
  else if n = "GET_ITER" then some (-1, 1)
  else if n = "GET_YIELD_FROM_ITER" then some (-1, 1)
  else if n = "GET_AWAITABLE" then some (-1, 1)
  else if n = "GET_AITER" then some (-1, 1)
  else if n = "GET_ANEXT" then some (-1, 2)
  else if n = "LIST_TO_TUPLE" then some (-1, 1)
  else if n = "LIST_EXTEND" then some (-2, 1)
  else if n = "SET_UPDATE" then some (-2, 1)
  else if n = "DICT_UPDATE" then some (-2, 1)
  else if n = "DICT_MERGE" then some (-2, 1)
  else if n = "COMPARE_OP" then some (-2, 1)
  else if n = "IS_OP" then some (-2, 1)
  else if n = "CONTAINS_OP" then some (-2, 1)
  else if n = "IMPORT_NAME" then some (-2, 1)
  else if n = "LOAD_ATTR" then some (-1, 1)
  else if n = "ASYNC_GEN_WRAP" then some (-1, 1)
  else if n = "PUSH_EXC_INFO" then some (-1, 2)
  else if n = "BEFORE_ASYNC_WITH" then some (-1, 2)
  else if n = "IMPORT_FROM" then some (-1, 2)
  else if n = "COPY_DICT_WITHOUT_KEYS" then some (-2, 2)
  else if n = "WITH_EXCEPT_START" then
    some (if t.py311 then (-4, 5) else (-7, 8))
  else if n = "MATCH_CLASS" then some (-3, if t.py311 then 1 else 2)
  else if n = "MATCH_MAPPING" then some (-1, 2)
  else if n = "MATCH_SEQUENCE" then some (-1, 2)
  else if n = "MATCH_KEYS" then some (-2, if t.py311 then 3 else 4)
  else if n = "CHECK_EXC_MATCH" then some (-2, 2)
  else if n = "CHECK_EG_MATCH" then some (-2, 2)
  else if n = "PREP_RERAISE_STAR" then some (-2, 1)
  else none

/-- `DYNAMIC_STACK_EFFECTS` as a lookup: each entry is the source's
lambda over `(effect, arg, jump)`; arithmetic on `arg` uses its Python
`int` value.  The `BUILD_*` comprehension requires membership in
`opmap`. -/
def dynamic_stack_effects (t : OpTables) (n : String) :
    Option (Int → PyArg → Option Bool → Int × Int) :=
  if n = "SWAP" then some (fun _ a _ => (-a.intVal, a.intVal))
  else if n = "COPY" then some (fun e a _ => (-a.intVal, a.intVal + e))
  else if n = "ROT_N" then some (fun _ a _ => (-a.intVal, a.intVal))
  else if n = "SET_ADD" then some (fun _ a _ => (-a.intVal, a.intVal - 1))
  else if n = "LIST_APPEND" then some (fun _ a _ => (-a.intVal, a.intVal - 1))
  else if n = "MAP_ADD" then some (fun _ a _ => (-a.intVal, a.intVal - 2))
  else if n = "FORMAT_VALUE" then some (fun e _ _ => (e - 1, 1))
  else if n = "FOR_ITER" then
    some (fun e _ j => match j with
      | some true => (e, 0)
      | _ => (-1, 2))
  else if n = "UNPACK_SEQUENCE" ∨ n = "UNPACK_EX" then
    some (fun e _ _ => (-1, e + 1))
  else if n = "MAKE_FUNCTION" ∨ n = "CALL_FUNCTION" ∨ n = "CALL_FUNCTION_EX" ∨
      n = "CALL_FUNCTION_KW" ∨ n = "CALL_METHOD" ∨
      (strBegins "BUILD_" n ∧ (t.opmap.lookup n).isSome) then
    some (fun e _ _ => (e - 1, 1))
  else none

/-- `BaseInstr.pre_and_post_stack_effect`: compute the net effect, then
return the static table entry, or apply the dynamic table's lambda, or
fall back to applying the whole net effect pre-execution. -/
def pre_and_post_stack_effect (t : OpTables) (i : PyInstr)
    (jump : Option Bool) : Int × Int :=
  let eff := stack_effect t i jump
  match static_stack_effects t i.name with
  | some p => p
  | none =>
    match dynamic_stack_effects t i.name with
    | some f => f eff i.arg jump
    | none => (eff, 0)

/-- A concrete external table (3.11 mode): the opcode names and category
sets used by the Part-2 witnesses, with an effect function that differs
between taken (`-1`) and not-taken (`1`) branches on `FOR_ITER`
(opcode 93) and equals 2 on `UNPACK_SEQUENCE` (opcode 92). -/
def tPy : OpTables where
  opmap := [("LOAD_GLOBAL", 116), ("LOAD_FAST", 124), ("LOAD_CONST", 100),
    ("NOP", 9), ("JUMP_ABSOLUTE", 113), ("JUMP_FORWARD", 110),
    ("FOR_ITER", 93), ("SET_ADD", 146), ("LIST_APPEND", 145),
    ("UNPACK_SEQUENCE", 92), ("COMPARE_OP", 107), ("RETURN_VALUE", 83),
    ("EXTENDED_ARG", 144), ("LOAD_DEREF", 136), ("STORE_NAME", 90)]
  haveArgument := 90
  hasjrel := [93, 110]
  hasjabs := [113]
  hasfree := [136]
  haslocal := [124]
  hasname := [90, 116]
  hasconst := [100]
  hascompare := [107]
  py311 := true
  effJump := fun op _ => if op = 93 then -1 else if op = 92 then 2 else 1
  effNoJump := fun op _ => if op = 93 then 1 else if op = 92 then 2 else 1

end InstrPy

/-! ## Theorems -/

namespace Bytecode

/-- Splicing a `set` at `bi` and an insertion right after it. -/
theorem set_insertIdx_take_drop {α : Type _} (l : List α) (bi : Nat) (a b : α)
    (h : bi < l.length) :
    (l.set bi a).insertIdx (bi + 1) b = l.take bi ++ a :: b :: l.drop (bi + 1) := by
  induction l generalizing bi with
  | nil => simp at h
  | cons x xs ih =>
    cases bi with
    | zero => simp [List.insertIdx]
    | succ n =>
      simp only [List.set, List.insertIdx, List.take, List.drop, List.cons_append]
      have := ih n (by simpa using h)
      simp only [List.insertIdx] at this ⊢
      simp [this]

/-- C2: during assembly, a `Label` operand is resolved to the target's
layout offset for an absolute jump and to
`target - (this_offset + this_size)` for a relative jump; moreover the
spec's example (relative opcode `J` = 10, size 3, at offset 0, target
offset 40) assembles to operand bytes `37, 0`. -/
theorem assemble_resolves_jump_operands :
    (∀ (d : OpDesc) (tgts : List (Nat × Nat)) (off : Nat) (i : Instr) (l t : Nat),
      i.arg = some (.labelArg l) → tgts.lookup l = some t →
      (i.op ∈ d.hasjrel →
        resolveInstr d tgts off i =
          some (i.replace_arg (some (.intArg ((t : Int) - ((off : Int) + i.size)))))) ∧
      (i.op ∈ d.hasjabs → i.op ∉ d.hasjrel →
        resolveInstr d tgts off i =
          some (i.replace_arg (some (.intArg (t : Int)))))) ∧
    (Code.assemble descC2 gC2 1).map Prod.fst =
      some (10 :: 37 :: 0 :: List.replicate 38 0) := by
  constructor
  · intro d tgts off i l t harg hl
    constructor
    · intro hrel
      simp [resolveInstr, harg, hl, hrel]
    · intro _ hnrel
      simp [resolveInstr, harg, hl, hnrel]
  · simp [Code.assemble, emitBlocks, emitInstrs, targetsGo, resolveInstr,
      Instr.assemble, Instr.size, makeLnotab, makeLnotabGo, lnotabEntry,
      fillOff, fillNeg, fillPos, offAfter, Instr.replace_arg, gC2, descC2, nopC2]

/-- Witness for C2 at the spec's example numbers. -/
theorem assemble_resolves_jump_operands_witness :
    (⟨1, 10, some (.labelArg 1)⟩ : Instr).arg = some (.labelArg 1) ∧
    ([(1, 40)] : List (Nat × Nat)).lookup 1 = some 40 ∧
    10 ∈ descC2.hasjrel ∧
    resolveInstr descC2 [(1, 40)] 0 ⟨1, 10, some (.labelArg 1)⟩ =
      some ⟨1, 10, some (.intArg 37)⟩ := by
  refine ⟨rfl, by decide, by decide, ?_⟩
  have h := (assemble_resolves_jump_operands.1 descC2 [(1, 40)] 0
      ⟨1, 10, some (.labelArg 1)⟩ 1 40 rfl (by decide)).1 (by decide)
  simpa [Instr.replace_arg, Instr.size] using h

/-- C3 counterexample: a flat encoding beginning with an extended-operand
prefix (opcode 144) disassembles to a Graph containing that prefix as a
standalone instruction with its raw operand — no merging happens. -/
theorem disassemble_emits_standalone_extended_arg :
    Code.disassemble descStd [144, 1, 0, 100, 2, 0] 1 lsNone =
      some ⟨[⟨0, [⟨1, 144, some (.intArg 1)⟩, ⟨1, 100, some (.intArg 2)⟩]⟩], 1⟩ ∧
    ((flatInstrs ⟨[⟨0, [⟨1, 144, some (.intArg 1)⟩,
        ⟨1, 100, some (.intArg 2)⟩]⟩], 1⟩).any fun i =>
          i.op == descStd.extendedArg) = true := by
  constructor
  · decide
  · decide

/-- C3 (amended): the scanner performs no extended-operand merging — an
extended-operand prefix byte at the current offset is decoded as a
standalone instruction carrying its raw little-endian operand, and
scanning continues independently after its three bytes. -/
theorem scanGo_extended_arg_standalone (d : OpDesc) (ls : Nat → Option Int)
    (b1 b2 : Nat) (bytes : List Nat) (off : Nat) (lineno : Int)
    (hHA : d.haveArgument ≤ d.extendedArg)
    (hrel : d.extendedArg ∉ d.hasjrel) (habs : d.extendedArg ∉ d.hasjabs) :
    scanGo d ls (d.extendedArg :: b1 :: b2 :: bytes) off lineno =
      (scanGo d ls bytes (off + 3)
          (match ls off with | some l => l | none => lineno)).map
        (fun p => (⟨(match ls off with | some l => l | none => lineno),
            d.extendedArg, some (.intArg ((b1 : Int) + b2 * 256))⟩ :: p.1, p.2)) := by
  simp only [scanGo]
  rw [if_pos hHA]
  simp only [Instr.get_jump_target, Instr.size]
  simp only [if_neg hrel, if_neg habs]
  cases h : scanGo d ls bytes (off + 3)
      (match ls off with | some l => l | none => lineno) with
  | none => simp [h]
  | some p => simp [h]

/-- Witness for the amended C3 on a concrete encoding. -/
theorem scanGo_extended_arg_standalone_witness :
    descStd.haveArgument ≤ descStd.extendedArg ∧
    descStd.extendedArg ∉ descStd.hasjrel ∧
    descStd.extendedArg ∉ descStd.hasjabs ∧
    scanGo descStd lsNone (descStd.extendedArg :: 1 :: 0 :: [9]) 0 1 =
      (scanGo descStd lsNone [9] 3
          (match lsNone 0 with | some l => l | none => (1 : Int))).map
        (fun p => (⟨(match lsNone 0 with | some l => l | none => (1 : Int)),
            descStd.extendedArg, some (.intArg ((1 : Int) + 0 * 256))⟩ :: p.1, p.2)) := by
  refine ⟨by decide, by decide, by decide, ?_⟩
  exact scanGo_extended_arg_standalone descStd lsNone 1 0 [9] 0 1
    (by decide) (by decide) (by decide)

/-- C5 counterexample: with two blocks holding equal instruction lists,
splitting the SECOND block (addressed by its label 1) at index 1 in fact
splits the first block: the new block (fresh label 2) is inserted at
position 1 — not immediately after the addressed block — and the
addressed block keeps its full instruction list, so the addressed
block's label is not attached to the prefix of any split. -/
theorem create_label_by_label_duplicate_miss :
    Code.create_label gDup (.byLabel 1) 1 = some (2, gDupSplit) ∧
    gDupSplit.blocks.map Block.label = [0, 2, 1] ∧
    gDupSplit.blocks[2]? = some ⟨1, [nopI, retI]⟩ := by
  refine ⟨by decide, by decide, by decide⟩

/-- C5 (amended): splitting the block at position `bi` at an index
`0 < index < len` truncates it to the prefix (keeping its label),
inserts a new block with the fresh label `nextLabel` and the suffix
immediately after it, and the two parts concatenate to the original
instruction list; the fresh label is attached to no pre-existing block
when all existing labels are below `nextLabel`.  (The claim as frozen
also covers blocks addressed by label, where `list.index` equality
aliasing can redirect the split to an earlier block with an equal
instruction list — see the counterexample.) -/
theorem create_label_split (c : Code) (bi : Nat) (index : Int) (blk : Block)
    (hbi : c.blocks[bi]? = some blk)
    (h0 : 0 < index) (hlen : index < (blk.instrs.length : Int)) :
    Code.create_label c (.byIndex (bi : Int)) index =
      some (c.nextLabel,
        ⟨c.blocks.take bi ++
           ⟨blk.label, blk.instrs.take index.toNat⟩ ::
           ⟨c.nextLabel, blk.instrs.drop index.toNat⟩ :: c.blocks.drop (bi + 1),
         c.nextLabel + 1⟩) ∧
    blk.instrs.take index.toNat ++ blk.instrs.drop index.toNat = blk.instrs ∧
    ((∀ b ∈ c.blocks, b.label < c.nextLabel) →
      c.nextLabel ∉ c.blocks.map Block.label) := by
  have hbilen : bi < c.blocks.length := by
    by_contra hcon
    rw [List.getElem?_eq_none (by omega)] at hbi
    exact Option.noConfusion hbi
  have hne : ¬ (blk.instrs.drop index.toNat).isEmpty = true := by
    have : index.toNat < blk.instrs.length := by omega
    simp [List.isEmpty_iff, List.drop_eq_nil_iff]
    omega
  refine ⟨?_, List.take_append_drop _ _, ?_⟩
  · have h1 : ¬ ((bi : Int) < 0) := by omega
    have h2 : ¬ index < 0 := by omega
    have h3 : ¬ index = 0 := by omega
    simp only [Code.create_label, Int.toNat_natCast, hbi, if_neg h1, if_neg h2,
      if_neg h3, if_neg hne]
    rw [set_insertIdx_take_drop _ _ _ _ hbilen]
  · intro hall hmem
    obtain ⟨b, hb, hlab⟩ := List.mem_map.mp hmem
    exact absurd (hall b hb) (by omega)

/-- Witness for the amended C5: split a two-instruction block at 1. -/
theorem create_label_split_witness :
    gDup.blocks[0]? = some ⟨0, [nopI, retI]⟩ ∧
    Code.create_label gDup (.byIndex 0) 1 =
      some (2, ⟨[⟨0, [nopI]⟩, ⟨2, [retI]⟩, ⟨1, [nopI, retI]⟩], 3⟩) := by
  refine ⟨by decide, ?_⟩
  have h := (create_label_split gDup 0 1 ⟨0, [nopI, retI]⟩ (by decide)
    (by decide) (by decide)).1
  simpa using h

/-- C6 counterexample: with two single-instruction duplicate blocks,
splitting the second (label 1) at index 0 returns the FIRST block's
label 0, not the addressed block's label 1 (the graph is unchanged). -/
theorem create_label_zero_duplicate_label_miss :
    Code.create_label gDup1 (.byLabel 1) 0 = some (0, gDup1) ∧
    gDup1.blocks[1]? = some ⟨1, [nopI]⟩ := by
  refine ⟨by decide, by decide⟩

/-- C6 (amended): splitting at index 0 leaves the `Code` unchanged and
returns the existing label of the addressed block — for a by-position
reference, that block's own label; for a by-label reference, the label
of the first block in iteration order whose instruction list equals the
referenced block's (which is the referenced block itself whenever no
earlier block has an equal instruction list). -/
theorem create_label_zero (c : Code) :
    (∀ (bi : Nat) (blk : Block), c.blocks[bi]? = some blk →
      Code.create_label c (.byIndex (bi : Int)) 0 = some (blk.label, c)) ∧
    (∀ (l : Nat) (blk : Block) (j : Nat) (blk2 : Block),
      c.blocks.find? (fun b => b.label == l) = some blk →
      c.blocks.findIdx? (fun b => b.instrs == blk.instrs) = some j →
      c.blocks[j]? = some blk2 →
      Code.create_label c (.byLabel l) 0 = some (blk2.label, c)) := by
  constructor
  · intro bi blk hbi
    have h1 : ¬ ((bi : Int) < 0) := by omega
    simp only [Code.create_label, Int.toNat_natCast, hbi, if_neg h1]
    norm_num
  · intro l blk j blk2 hfind hidx hj
    simp only [Code.create_label, hfind, hidx, hj]
    norm_num

/-- Witness for the amended C6 on both addressing modes. -/
theorem create_label_zero_witness :
    Code.create_label gDup1 (.byIndex 0) 0 = some (0, gDup1) ∧
    Code.create_label gDup1 (.byLabel 0) 0 = some (0, gDup1) := by
  constructor
  · exact (create_label_zero gDup1).1 0 ⟨0, [nopI]⟩ (by decide)
  · exact (create_label_zero gDup1).2 0 ⟨0, [nopI]⟩ 0 ⟨0, [nopI]⟩
      (by decide) (by decide) (by decide)

/-- C4 (code bug): assembling `gC4` (instruction at offset 0 on line 1,
instruction at offset 1 on line 300) emits the line fillers BEFORE the
entry that carries the offset delta, so decoding the produced table
attributes line 253 to offset 0 even though the assembled instruction at
offset 0 has line 1 — the delta encoding does not round-trip.  The
offset-overflow filler is the literal `b'\xff0'`, i.e. `(255, 48)`: a
visible line change of +48, not a zero-line-change entry (that path is
unreachable from `assemble`, whose offset deltas are at most 3). -/
theorem lnotab_roundtrip_failure :
    Code.assemble descStd gC4 1 = some ([9, 9], [0, 126, 0, 126, 1, 47]) ∧
    emitBlocks descStd (targetsGo gC4.blocks 0 []) gC4.blocks 0 =
      some ([9, 9], [(0, 1), (1, 300)]) ∧
    findlinestarts [0, 126, 0, 126, 1, 47] 1 = [(0, 253), (1, 300)] ∧
    (253 : Int) ≠ 1 ∧
    fillOff 256 = ([255, 48], 1) := by
  refine ⟨?_, by decide, by decide, by decide, ?_⟩
  · simp [Code.assemble, emitBlocks, emitInstrs, targetsGo, resolveInstr, Instr.assemble,
      Instr.size, makeLnotab, makeLnotabGo, lnotabEntry, fillOff, fillNeg, fillPos,
      offAfter, Instr.replace_arg, gC4, descStd]
    try decide
  · rw [fillOff]
    norm_num
    rw [fillOff]
    norm_num

end Bytecode

namespace InstrPy

/-- On success, `_set` has stored exactly the requested name (with its
`opmap` opcode) and operand, and that triple passes `_check_arg`. -/
theorem set_impl_ok (t : OpTables) (i : PyInstr) (nm : String) (a : PyArg)
    (i' : PyInstr) (h : set_impl t i nm a = (i', none)) :
    i'.name = nm ∧ t.opmap.lookup nm = some i'.opcode ∧ i'.arg = a ∧
    check_arg t nm i'.opcode a = .ok () := by
  unfold set_impl at h
  split at h
  next => exact absurd h (by simp)
  next opc heq =>
    split at h
    next e heq2 => exact absurd h (by simp)
    next u heq2 =>
      injection h with h1 h2
      cases h1
      exact ⟨rfl, heq, rfl, by cases u; exact heq2⟩

/-- On failure, `_set` raised before any field assignment: the
instruction is unchanged. -/
theorem set_impl_err (t : OpTables) (i : PyInstr) (nm : String) (a : PyArg)
    (i' : PyInstr) (e : String) (h : set_impl t i nm a = (i', some e)) :
    i' = i := by
  unfold set_impl at h
  split at h
  next =>
    injection h with h1 h2
    exact h1.symm
  next opc heq =>
    split at h
    next e2 heq2 =>
      injection h with h1 h2
      exact h1.symm
    next u heq2 => exact absurd h (by simp)

set_option maxHeartbeats 1000000 in
/-- What a successful `_check_arg` guarantees, category by category in
the source's `elif` order. -/
theorem check_arg_sound (t : OpTables) (name : String) (opc : Nat) (arg : PyArg)
    (h : check_arg t name opc arg = .ok ()) :
    (t.haveArgument ≤ opc → arg ≠ .unset) ∧
    (opc < t.haveArgument → arg = .unset) ∧
    (hasJump t opc = true → arg.isLabelOrBlock = true) ∧
    (hasJump t opc = false → opc ∈ t.hasfree → arg.isCellOrFree = true) ∧
    (hasJump t opc = false → opc ∉ t.hasfree → opc ∈ t.haslocal ∨ opc ∈ t.hasname →
      ((t.py311 = true ∧ name = "LOAD_GLOBAL") → arg.isBoolStrTuple = true)) ∧
    (hasJump t opc = false → opc ∉ t.hasfree → opc ∈ t.haslocal ∨ opc ∈ t.hasname →
      (¬ (t.py311 = true ∧ name = "LOAD_GLOBAL") → arg.isStr = true)) ∧
    (hasJump t opc = false → opc ∉ t.hasfree → opc ∉ t.haslocal → opc ∉ t.hasname →
      opc ∉ t.hasconst → opc ∈ t.hascompare → arg.isCompare = true) ∧
    (hasJump t opc = false → opc ∉ t.hasfree → opc ∉ t.haslocal → opc ∉ t.hasname →
      opc ∉ t.hasconst → opc ∉ t.hascompare → t.haveArgument ≤ opc →
      arg.isInstInt = true ∧ 0 ≤ arg.intVal ∧ arg.intVal ≤ 2147483647) := by
  unfold check_arg check_arg_int at h
  split_ifs at h
  all_goals try (cases arg <;> try exact Except.noConfusion h)
  all_goals refine ⟨?_, ?_, ?_, ?_, ?_, ?_, ?_, ?_⟩
  all_goals intros
  all_goals first | assumption | tauto | simp_all

/-- C7 counterexample: under 3.11 (`py311 = true`) a `LOAD_GLOBAL`
instruction — a name-category opcode — is accepted with a
`(bool, str)` tuple operand, which is not a string, so construction
does not fail although the operand's tag does not match the claimed
category. -/
theorem load_global_tuple_accepted :
    check_arg tPy "LOAD_GLOBAL" 116 (.tuple true "x") = .ok () ∧
    mkInstr tPy "LOAD_GLOBAL" (.tuple true "x") =
      .ok ⟨"LOAD_GLOBAL", 116, .tuple true "x"⟩ ∧
    116 ∈ tPy.hasname ∧
    (PyArg.tuple true "x").isStr = false ∧
    tPy.py311 = true := by
  refine ⟨by decide, by decide, by decide, by decide, by decide⟩

/-- C7 (amended): a successfully constructed instruction's operand
matches its opcode's declared category — `Label`/`Block` for jumps,
`CellVar`/`FreeVar` for free-variable opcodes, `str` for name/local
opcodes EXCEPT `LOAD_GLOBAL` on 3.11+ (which takes a `(bool, str)`
pair), `Compare` for comparison opcodes, and a bounded integer in
`0..2147483647` for the remaining opcodes at or above `HAVE_ARGUMENT` —
and the operand is present exactly when the opcode is at or above
`HAVE_ARGUMENT` (otherwise construction raised). -/
theorem construction_validates_operand (t : OpTables) (name : String)
    (arg : PyArg) (i : PyInstr) (h : mkInstr t name arg = .ok i) :
    i.name = name ∧ t.opmap.lookup name = some i.opcode ∧ i.arg = arg ∧
    (t.haveArgument ≤ i.opcode → arg ≠ .unset) ∧
    (i.opcode < t.haveArgument → arg = .unset) ∧
    (hasJump t i.opcode = true → arg.isLabelOrBlock = true) ∧
    (hasJump t i.opcode = false → i.opcode ∈ t.hasfree → arg.isCellOrFree = true) ∧
    (hasJump t i.opcode = false → i.opcode ∉ t.hasfree →
      i.opcode ∈ t.haslocal ∨ i.opcode ∈ t.hasname →
      ((t.py311 = true ∧ name = "LOAD_GLOBAL") → arg.isBoolStrTuple = true)) ∧
    (hasJump t i.opcode = false → i.opcode ∉ t.hasfree →
      i.opcode ∈ t.haslocal ∨ i.opcode ∈ t.hasname →
      (¬ (t.py311 = true ∧ name = "LOAD_GLOBAL") → arg.isStr = true)) ∧
    (hasJump t i.opcode = false → i.opcode ∉ t.hasfree → i.opcode ∉ t.haslocal →
      i.opcode ∉ t.hasname → i.opcode ∉ t.hasconst → i.opcode ∈ t.hascompare →
      arg.isCompare = true) ∧
    (hasJump t i.opcode = false → i.opcode ∉ t.hasfree → i.opcode ∉ t.haslocal →
      i.opcode ∉ t.hasname → i.opcode ∉ t.hasconst → i.opcode ∉ t.hascompare →
      t.haveArgument ≤ i.opcode →
      arg.isInstInt = true ∧ 0 ≤ arg.intVal ∧ arg.intVal ≤ 2147483647) := by
  have hset : set_impl t ⟨"", 0, .unset⟩ name arg = (i, none) := by
    unfold mkInstr at h
    cases hs : set_impl t ⟨"", 0, .unset⟩ name arg with
    | mk i2 err =>
      cases err with
      | none => rw [hs] at h; cases h; rfl
      | some e => rw [hs] at h; cases h
  obtain ⟨hn, hlk, ha, hca⟩ := set_impl_ok t _ name arg i hset
  subst ha
  obtain ⟨c1, c2, c3, c4, c5, c6, c7, c8⟩ := check_arg_sound t name i.opcode i.arg hca
  exact ⟨hn, hlk, rfl, c1, c2, c3, c4, c5, c6, c7, c8⟩

/-- Witness for the amended C7: a local-category opcode accepts a string
operand and the theorem reports it as a string. -/
theorem construction_validates_operand_witness :
    mkInstr tPy "LOAD_FAST" (.str "x") = .ok ⟨"LOAD_FAST", 124, .str "x"⟩ ∧
    (PyArg.str "x").isStr = true := by
  refine ⟨by decide, ?_⟩
  have h := construction_validates_operand tPy "LOAD_FAST" (.str "x")
    ⟨"LOAD_FAST", 124, .str "x"⟩ (by decide)
  exact h.2.2.2.2.2.2.2.2.1 (by decide) (by decide) (Or.inl (by decide)) (by decide)

/-- C8 counterexample: for an instruction whose taken and not-taken
effects differ (`FOR_ITER` here: -1 taken, +1 not taken),
`stack_effect` with direction `None` returns the maximum (+1) — a value,
not an error. -/
theorem stack_effect_none_returns_value :
    stack_effect tPy ⟨"FOR_ITER", 93, .int 0⟩ (some true) = -1 ∧
    stack_effect tPy ⟨"FOR_ITER", 93, .int 0⟩ (some false) = 1 ∧
    stack_effect tPy ⟨"FOR_ITER", 93, .int 0⟩ none = 1 := by
  refine ⟨by decide, by decide, by decide⟩

/-- C8 (amended): `stack_effect` with direction `None` returns the
maximal of the taken and not-taken effects (the documented behaviour of
the external `dis.stack_effect` it delegates to); in particular, when
the two agree it returns the common net delta, and no error is raised
in either case. -/
theorem stack_effect_none_is_max (t : OpTables) (i : PyInstr) :
    stack_effect t i none =
      max (stack_effect t i (some true)) (stack_effect t i (some false)) := rfl

/-- C9 counterexample: `FOR_ITER` with the branch taken yields the pair
`(net effect, 0)` = `(-1, 0)`, whose net sum is -1, not zero. -/
theorem for_iter_taken_not_net_zero :
    pre_and_post_stack_effect tPy ⟨"FOR_ITER", 93, .int 0⟩ (some true) = (-1, 0) ∧
    (-1 : Int) + 0 ≠ 0 := by
  refine ⟨by decide, by decide⟩

/-- C9 (amended): `pre_and_post_stack_effect` returns `(-1, N)` for an
unpack-style opcode whose net effect is `N - 1` (pop 1, push N);
`(-N, N-1)` for an append-style opcode with operand `N`; for
`FOR_ITER`, `(-1, 2)` when the branch is not taken (one stack item
required as precondition) and `(net effect, 0)` — the whole effect
pre-execution, zero push contribution — when it is taken; and
`(net effect, 0)` for every opcode absent from both tables. -/
theorem pre_and_post_effect_table (t : OpTables) (i : PyInstr) (j : Option Bool) :
    ((i.name = "UNPACK_SEQUENCE" ∨ i.name = "UNPACK_EX") →
      ∀ N : Int, stack_effect t i j = N - 1 →
        pre_and_post_stack_effect t i j = (-1, N)) ∧
    ((i.name = "SET_ADD" ∨ i.name = "LIST_APPEND") →
      ∀ N : Int, i.arg = .int N →
        pre_and_post_stack_effect t i j = (-N, N - 1)) ∧
    (i.name = "FOR_ITER" →
      pre_and_post_stack_effect t i (some true) = (stack_effect t i (some true), 0) ∧
      ((j = none ∨ j = some false) → pre_and_post_stack_effect t i j = (-1, 2))) ∧
    (static_stack_effects t i.name = none → dynamic_stack_effects t i.name = none →
      pre_and_post_stack_effect t i j = (stack_effect t i j, 0)) := by
  refine ⟨?_, ?_, ?_, ?_⟩
  · rintro (hn | hn) N hN
    · simp only [pre_and_post_stack_effect, hn,
        show static_stack_effects t "UNPACK_SEQUENCE" = none from rfl,
        show dynamic_stack_effects t "UNPACK_SEQUENCE" =
          some (fun e _ _ => (-1, e + 1)) from rfl]
      rw [hN]
      norm_num
    · simp only [pre_and_post_stack_effect, hn,
        show static_stack_effects t "UNPACK_EX" = none from rfl,
        show dynamic_stack_effects t "UNPACK_EX" =
          some (fun e _ _ => (-1, e + 1)) from rfl]
      rw [hN]
      norm_num
  · rintro (hn | hn) N hA
    · simp [pre_and_post_stack_effect, hn, hA,
        show static_stack_effects t "SET_ADD" = none from rfl,
        show dynamic_stack_effects t "SET_ADD" =
          some (fun _ a _ => (-a.intVal, a.intVal - 1)) from rfl, PyArg.intVal]
    · simp [pre_and_post_stack_effect, hn, hA,
        show static_stack_effects t "LIST_APPEND" = none from rfl,
        show dynamic_stack_effects t "LIST_APPEND" =
          some (fun _ a _ => (-a.intVal, a.intVal - 1)) from rfl, PyArg.intVal]
  · intro hn
    constructor
    · simp [pre_and_post_stack_effect, hn,
        show static_stack_effects t "FOR_ITER" = none from rfl,
        show dynamic_stack_effects t "FOR_ITER" =
          some (fun e _ j2 => match j2 with
            | some true => (e, 0)
            | _ => (-1, 2)) from rfl]
    · rintro (rfl | rfl) <;>
        simp [pre_and_post_stack_effect, hn,
          show static_stack_effects t "FOR_ITER" = none from rfl,
          show dynamic_stack_effects t "FOR_ITER" =
            some (fun e _ j2 => match j2 with
              | some true => (e, 0)
              | _ => (-1, 2)) from rfl]
  · intro h1 h2
    simp [pre_and_post_stack_effect, h1, h2]

/-- Witness for the amended C9 on unpack and append instances. -/
theorem pre_and_post_effect_table_witness :
    stack_effect tPy ⟨"UNPACK_SEQUENCE", 92, .int 3⟩ none = 3 - 1 ∧
    pre_and_post_stack_effect tPy ⟨"UNPACK_SEQUENCE", 92, .int 3⟩ none = (-1, 3) ∧
    pre_and_post_stack_effect tPy ⟨"SET_ADD", 146, .int 4⟩ none = (-4, 4 - 1) := by
  refine ⟨by decide, ?_, ?_⟩
  · exact (pre_and_post_effect_table tPy ⟨"UNPACK_SEQUENCE", 92, .int 3⟩ none).1
      (Or.inl rfl) 3 (by decide)
  · exact (pre_and_post_effect_table tPy ⟨"SET_ADD", 146, .int 4⟩ none).2.1
      (Or.inl rfl) 4 rfl

/-- C10: every mutator (`set`, and the `name`/`arg`/`opcode` setters)
validates the new name/operand pair before assigning any field: on
success the stored triple passes `_check_arg` (so the operand matches
the opcode's declared category), and on failure the instruction's name,
opcode and operand are exactly what they were. -/
theorem mutation_validates_and_frames (t : OpTables) (i : PyInstr)
    (nm : String) (arg : PyArg) (op : Int) :
    (∀ i', instrSet t i nm arg = (i', none) →
      i'.name = nm ∧ t.opmap.lookup nm = some i'.opcode ∧ i'.arg = arg ∧
      check_arg t i'.name i'.opcode i'.arg = .ok ()) ∧
    (∀ i' e, instrSet t i nm arg = (i', some e) → i' = i) ∧
    (∀ i', nameSetter t i nm = (i', none) →
      i'.name = nm ∧ i'.arg = i.arg ∧
      check_arg t i'.name i'.opcode i'.arg = .ok ()) ∧
    (∀ i' e, nameSetter t i nm = (i', some e) → i' = i) ∧
    (∀ i', argSetter t i arg = (i', none) →
      i'.name = i.name ∧ i'.arg = arg ∧
      check_arg t i'.name i'.opcode i'.arg = .ok ()) ∧
    (∀ i' e, argSetter t i arg = (i', some e) → i' = i) ∧
    (∀ i', opcodeSetter t i op = (i', none) →
      i'.arg = i.arg ∧ check_arg t i'.name i'.opcode i'.arg = .ok ()) ∧
    (∀ i' e, opcodeSetter t i op = (i', some e) → i' = i) := by
  refine ⟨?_, ?_, ?_, ?_, ?_, ?_, ?_, ?_⟩
  · intro i' h
    obtain ⟨h1, h2, h3, h4⟩ := set_impl_ok t i nm arg i' h
    exact ⟨h1, h2, h3, by rw [h1, h3]; exact h4⟩
  · intro i' e h
    exact set_impl_err t i nm arg i' e h
  · intro i' h
    obtain ⟨h1, h2, h3, h4⟩ := set_impl_ok t i nm i.arg i' h
    exact ⟨h1, h3, by rw [h1, h3]; exact h4⟩
  · intro i' e h
    exact set_impl_err t i nm i.arg i' e h
  · intro i' h
    obtain ⟨h1, h2, h3, h4⟩ := set_impl_ok t i i.name arg i' h
    exact ⟨h1, h3, by rw [h1, h3]; exact h4⟩
  · intro i' e h
    exact set_impl_err t i i.name arg i' e h
  · intro i' h
    unfold opcodeSetter at h
    by_cases hop : 0 ≤ op ∧ op ≤ 255
    · rw [if_pos hop] at h
      cases hon : opnameOf t op.toNat with
      | none => rw [hon] at h; cases h
      | some name2 =>
        rw [hon] at h
        obtain ⟨h1, h2, h3, h4⟩ := set_impl_ok t i name2 i.arg i' h
        exact ⟨h3, by rw [h1, h3]; exact h4⟩
    · rw [if_neg hop] at h; cases h
  · intro i' e h
    unfold opcodeSetter at h
    by_cases hop : 0 ≤ op ∧ op ≤ 255
    · rw [if_pos hop] at h
      cases hon : opnameOf t op.toNat with
      | none =>
        rw [hon] at h
        exact (Prod.mk.injEq .. ▸ h).1.symm
      | some name2 =>
        rw [hon] at h
        exact set_impl_err t i name2 i.arg i' e h
    · rw [if_neg hop] at h
      exact (Prod.mk.injEq .. ▸ h).1.symm

/-- Witness for C10: a successful `set` stores a validated triple; a
rejected `arg` assignment leaves the instruction untouched. -/
theorem mutation_validates_and_frames_witness :
    instrSet tPy ⟨"NOP", 9, .unset⟩ "LOAD_FAST" (.str "x") =
      (⟨"LOAD_FAST", 124, .str "x"⟩, none) ∧
    check_arg tPy "LOAD_FAST" 124 (.str "x") = .ok () ∧
    argSetter tPy ⟨"LOAD_FAST", 124, .str "x"⟩ (.int 5) =
      (⟨"LOAD_FAST", 124, .str "x"⟩, some "argument must be a str") ∧
    (⟨"LOAD_FAST", 124, .str "x"⟩ : PyInstr) = ⟨"LOAD_FAST", 124, .str "x"⟩ := by
  refine ⟨by decide, ?_, by decide, ?_⟩
  · have h := (mutation_validates_and_frames tPy ⟨"NOP", 9, .unset⟩
      "LOAD_FAST" (.str "x") 0).1 ⟨"LOAD_FAST", 124, .str "x"⟩ (by decide)
    exact h.2.2.2
  · have h := (mutation_validates_and_frames tPy ⟨"LOAD_FAST", 124, .str "x"⟩
      "NOP" (.int 5) 0).2.2.2.2.2.1 ⟨"LOAD_FAST", 124, .str "x"⟩
      "argument must be a str" (by decide)
    exact h ▸ rfl

end InstrPy

namespace Bytecode

/-! Machinery for the round-trip theorem (C1). -/

theorem sizeSum_nil : sizeSum [] = 0 := rfl

theorem sizeSum_cons (i : Instr) (is : List Instr) :
    sizeSum (i :: is) = i.size + sizeSum is := by
  simp [sizeSum]

theorem sizeSum_append (xs ys : List Instr) :
    sizeSum (xs ++ ys) = sizeSum xs + sizeSum ys := by
  simp [sizeSum]

theorem size_pos (i : Instr) : 0 < i.size := by
  unfold Instr.size
  split <;> omega

theorem offAfter_eq (is : List Instr) : ∀ off, offAfter off is = off + sizeSum is := by
  induction is with
  | nil => intro off; simp [offAfter, sizeSum]
  | cons i is ih =>
    intro off
    show offAfter (off + i.size) is = _
    rw [ih, sizeSum_cons]
    omega

theorem offsetsOf_append (xs ys : List Instr) :
    ∀ off, offsetsOf (xs ++ ys) off = offsetsOf xs off ++ offsetsOf ys (off + sizeSum xs) := by
  induction xs with
  | nil => intro off; simp [offsetsOf, sizeSum]
  | cons x xs ih =>
    intro off
    have hc : (x :: xs) ++ ys = x :: (xs ++ ys) := rfl
    rw [hc]
    show off :: offsetsOf (xs ++ ys) (off + x.size) = _
    rw [ih]
    simp [offsetsOf, sizeSum_cons, Nat.add_assoc]

theorem mem_offsetsOf_ge (is : List Instr) :
    ∀ off o, o ∈ offsetsOf is off → off ≤ o := by
  induction is with
  | nil => intro off o h; simp [offsetsOf] at h
  | cons i is ih =>
    intro off o h
    simp only [offsetsOf, List.mem_cons] at h
    rcases h with rfl | h
    · omega
    · have := ih _ _ h
      omega

theorem mem_offsetsOf_lt (is : List Instr) :
    ∀ off o, o ∈ offsetsOf is off → o < off + sizeSum is := by
  induction is with
  | nil => intro off o h; simp [offsetsOf] at h
  | cons i is ih =>
    intro off o h
    simp only [offsetsOf, List.mem_cons] at h
    have hs := size_pos i
    rcases h with rfl | h
    · rw [sizeSum_cons]
      have := size_pos i
      have : 0 ≤ sizeSum is := Nat.zero_le _
      omega
    · have := ih _ _ h
      rw [sizeSum_cons]
      omega

theorem lookup_eq_some_of_mem {β : Type _} (ps : List (Nat × β)) (k : Nat) (v : β)
    (hnd : (ps.map Prod.fst).Nodup) (hmem : (k, v) ∈ ps) : ps.lookup k = some v := by
  induction ps with
  | nil => cases hmem
  | cons p t ih =>
    obtain ⟨a, b⟩ := p
    simp only [List.map_cons, List.nodup_cons] at hnd
    rcases List.mem_cons.mp hmem with heq | hmem2
    · cases heq
      simp [List.lookup]
    · have hka : k ≠ a := by
        rintro rfl
        exact hnd.1 (List.mem_map.mpr ⟨(k, v), hmem2, rfl⟩)
      have hbeq : (k == a) = false := by simpa using hka
      simp only [List.lookup, hbeq]
      exact ih hnd.2 hmem2

theorem mem_of_lookup_eq_some {α β : Type _} [DecidableEq α] [LawfulBEq α]
    (ps : List (α × β)) (k : α) (v : β)
    (h : ps.lookup k = some v) : (k, v) ∈ ps := by
  induction ps with
  | nil => cases h
  | cons p t ih =>
    obtain ⟨a, b⟩ := p
    simp only [List.lookup] at h
    by_cases hka : k = a
    · subst hka
      simp only [beq_self_eq_true] at h
      cases h
      exact List.mem_cons_self _ _
    · have hbeq : (k == a) = false := by simpa using hka
      simp only [hbeq] at h
      exact List.mem_cons_of_mem _ (ih h)

theorem targetsGo_acc (bs : List Block) :
    ∀ off acc, targetsGo bs off acc = targetsGo bs off [] ++ acc := by
  induction bs with
  | nil => intro off acc; simp [targetsGo]
  | cons b bs ih =>
    intro off acc
    show targetsGo bs _ ((b.label, off) :: acc) = targetsGo bs _ [(b.label, off)] ++ acc
    rw [ih _ ((b.label, off) :: acc), ih _ [(b.label, off)]]
    simp

theorem targetsGo_eq_rev (bs : List Block) :
    ∀ off, targetsGo bs off [] = (blockOffsets bs off).reverse := by
  induction bs with
  | nil => intro off; simp [targetsGo, blockOffsets]
  | cons b bs ih =>
    intro off
    show targetsGo bs (offAfter off b.instrs) [(b.label, off)] = _
    rw [targetsGo_acc, ih, offAfter_eq, blockOffsets]
    simp

theorem blockOffsets_keys (bs : List Block) :
    ∀ off, (blockOffsets bs off).map Prod.fst = bs.map Block.label := by
  induction bs with
  | nil => intro off; simp [blockOffsets]
  | cons b bs ih =>
    intro off
    simp [blockOffsets, ih]

/-- Label lookup in the assembler's target table: the unique entry of
`blockOffsets` when labels are distinct. -/
theorem targetsGo_lookup (bs : List Block) (off : Nat) (l : Nat) (v : Nat)
    (hnd : (bs.map Block.label).Nodup)
    (hmem : (l, v) ∈ blockOffsets bs off) :
    (targetsGo bs off []).lookup l = some v := by
  rw [targetsGo_eq_rev]
  refine lookup_eq_some_of_mem _ _ _ ?_ (by simpa using hmem)
  rw [List.map_reverse, List.nodup_reverse, blockOffsets_keys]
  exact hnd

/-- Every block start is an instruction boundary of the flattened list,
and strictly below the total size when every block is nonempty. -/
theorem blockOffsets_mem_offsets (bs : List Block) (hne : ∀ b ∈ bs, b.instrs ≠ []) :
    ∀ off l v, (l, v) ∈ blockOffsets bs off →
      v ∈ offsetsOf (flattenBlocks bs) off ∧
      v < off + sizeSum (flattenBlocks bs) := by
  induction bs with
  | nil => intro off l v h; cases h
  | cons b bs ih =>
    intro off l v h
    have hb : b.instrs ≠ [] := hne b (List.mem_cons_self _ _)
    have hflat : flattenBlocks (b :: bs) = b.instrs ++ flattenBlocks bs := by
      simp [flattenBlocks]
    rcases List.mem_cons.mp h with heq | hmem2
    · cases heq
      constructor
      · rw [hflat]
        cases hbi : b.instrs with
        | nil => exact absurd hbi hb
        | cons i rest => simp [offsetsOf]
      · rw [hflat, sizeSum_append]
        have : 0 < sizeSum b.instrs := by
          cases hbi : b.instrs with
          | nil => exact absurd hbi hb
          | cons i rest =>
            rw [sizeSum_cons]
            have := size_pos i
            omega
        omega
    · have := ih (fun b2 hb2 => hne b2 (List.mem_cons_of_mem _ hb2))
        (off + sizeSum b.instrs) l v hmem2
      rw [hflat, offsetsOf_append, sizeSum_append]
      refine ⟨List.mem_append_right _ this.1, by omega⟩

/-! Strip congruences: functions that only read opcode and operand. -/

theorem strip_parts (i j : Instr) (h : strip i = strip j) :
    i.op = j.op ∧ i.arg = j.arg := by
  cases i
  cases j
  simpa [strip] using h

theorem size_congr (i j : Instr) (h : strip i = strip j) : i.size = j.size := by
  obtain ⟨h1, h2⟩ := strip_parts i j h
  unfold Instr.size
  rw [h2]

theorem assemble_congr (i j : Instr) (h : strip i = strip j) :
    i.assemble = j.assemble := by
  obtain ⟨h1, h2⟩ := strip_parts i j h
  cases i
  cases j
  simp only at h1 h2
  subst h1
  subst h2
  rfl

theorem get_jump_target_congr (d : OpDesc) (off : Nat) (i j : Instr)
    (h : strip i = strip j) :
    i.get_jump_target d off = j.get_jump_target d off := by
  obtain ⟨h1, h2⟩ := strip_parts i j h
  cases i
  cases j
  simp only at h1 h2
  subst h1
  subst h2
  rfl

theorem tsOf_congr (d : OpDesc) :
    ∀ (is js : List Instr) (off : Nat), is.map strip = js.map strip →
      tsOf d is off = tsOf d js off := by
  intro is
  induction is with
  | nil =>
    intro js off h
    cases js with
    | nil => rfl
    | cons j js => simp at h
  | cons i is ih =>
    intro js off h
    cases js with
    | nil => simp at h
    | cons j js =>
      simp only [List.map_cons, List.cons.injEq] at h
      obtain ⟨h1, h2⟩ := h
      simp only [tsOf, get_jump_target_congr d off i j h1, size_congr i j h1, ih js _ h2]

theorem offsetsOf_congr :
    ∀ (is js : List Instr) (off : Nat), is.map strip = js.map strip →
      offsetsOf is off = offsetsOf js off := by
  intro is
  induction is with
  | nil =>
    intro js off h
    cases js with
    | nil => rfl
    | cons j js => simp at h
  | cons i is ih =>
    intro js off h
    cases js with
    | nil => simp at h
    | cons j js =>
      simp only [List.map_cons, List.cons.injEq] at h
      obtain ⟨h1, h2⟩ := h
      simp only [offsetsOf, size_congr i j h1, ih js _ h2]

theorem sizeSum_congr (is js : List Instr) (h : is.map strip = js.map strip) :
    sizeSum is = sizeSum js := by
  unfold sizeSum
  induction is generalizing js with
  | nil => cases js with
    | nil => rfl
    | cons j js => simp at h
  | cons i is ih =>
    cases js with
    | nil => simp at h
    | cons j js =>
      simp only [List.map_cons, List.cons.injEq] at h
      simp only [List.map_cons, List.sum_cons, size_congr i j h.1, ih js h.2]

theorem reEnc_congr :
    ∀ (is js : List Instr), is.map strip = js.map strip → reEnc is = reEnc js := by
  intro is
  induction is with
  | nil =>
    intro js h
    cases js with
    | nil => rfl
    | cons j js => simp at h
  | cons i is ih =>
    intro js h
    cases js with
    | nil => simp at h
    | cons j js =>
      simp only [List.map_cons, List.cons.injEq] at h
      simp only [reEnc, assemble_congr i j h.1, ih js h.2]

/-! The resolution step and its effect on shapes. -/

theorem resolveInstr_none_or_int (d : OpDesc) (tgts : List (Nat × Nat)) (off : Nat)
    (i : Instr) (h : noLabel i.arg) : resolveInstr d tgts off i = some i := by
  unfold resolveInstr
  cases harg : i.arg with
  | none => rfl
  | some a =>
    cases a with
    | intArg n => rfl
    | labelArg l =>
      rw [harg] at h
      simp [noLabel] at h

theorem resolveInstr_label (d : OpDesc) (tgts : List (Nat × Nat)) (off : Nat)
    (i : Instr) (l : Nat) (v : Nat) (harg : i.arg = some (.labelArg l))
    (hl : tgts.lookup l = some v) :
    resolveInstr d tgts off i =
      some (i.replace_arg (some (.intArg
        (if i.op ∈ d.hasjrel then (v : Int) - ((off : Int) + i.size) else v)))) := by
  unfold resolveInstr
  simp only [harg, hl]

theorem resolveInstr_shape (d : OpDesc) (tgts : List (Nat × Nat)) (off : Nat)
    (i r : Instr) (h : resolveInstr d tgts off i = some r) :
    r.op = i.op ∧ r.lineno = i.lineno ∧ r.arg.isSome = i.arg.isSome ∧ r.size = i.size := by
  unfold resolveInstr at h
  cases harg : i.arg with
  | none =>
    simp only [harg] at h
    cases h
    simp [harg]
  | some a =>
    cases a with
    | intArg n =>
      simp only [harg] at h
      cases h
      simp [harg]
    | labelArg l =>
      simp only [harg] at h
      cases hl : tgts.lookup l with
      | none =>
        simp only [hl] at h
        exact Option.noConfusion h
      | some v =>
        simp only [hl] at h
        cases h
        simp [Instr.replace_arg, Instr.size, harg]

/-! Structure of the emit loop. -/

theorem emitInstrs_cons (d : OpDesc) (t : List (Nat × Nat)) (i : Instr)
    (is : List Instr) (off : Nat) :
    emitInstrs d t (i :: is) off =
      match resolveInstr d t off i with
      | none => none
      | some r =>
        match r.assemble with
        | none => none
        | some bs =>
          match emitInstrs d t is (off + r.size) with
          | none => none
          | some (c, lns, fin) => some (bs ++ c, (off, r.lineno) :: lns, fin) := rfl

theorem emit_fin (d : OpDesc) (t : List (Nat × Nat)) :
    ∀ (is : List Instr) (off : Nat) (c : List Nat) (lns : List (Nat × Int)) (f : Nat),
      emitInstrs d t is off = some (c, lns, f) → f = off + sizeSum is := by
  intro is
  induction is with
  | nil =>
    intro off c lns f h
    simp only [emitInstrs, Option.some.injEq, Prod.mk.injEq] at h
    obtain ⟨-, -, h3⟩ := h
    simp [sizeSum]
    omega
  | cons i is ih =>
    intro off c lns f h
    rw [emitInstrs_cons] at h
    split at h
    next => cases h
    next r hr =>
      split at h
      next => cases h
      next bs hbs =>
        split at h
        next => cases h
        next c2 lns2 fin2 hrec =>
          injection h with h2
          cases h2
          have := ih _ _ _ _ hrec
          have hsz := (resolveInstr_shape d t off i r hr).2.2.2
          rw [sizeSum_cons]
          omega

theorem emitInstrs_append (d : OpDesc) (t : List (Nat × Nat)) :
    ∀ (xs ys : List Instr) (off : Nat),
      emitInstrs d t (xs ++ ys) off =
        match emitInstrs d t xs off with
        | none => none
        | some (c, lns, f) =>
          match emitInstrs d t ys f with
          | none => none
          | some (c2, lns2, f2) => some (c ++ c2, lns ++ lns2, f2) := by
  intro xs
  induction xs with
  | nil =>
    intro ys off
    show emitInstrs d t ys off = _
    simp only [emitInstrs]
    cases h : emitInstrs d t ys off with
    | none => rfl
    | some p =>
      obtain ⟨c2, lns2, f2⟩ := p
      simp
  | cons x xs ih =>
    intro ys off
    have hc : (x :: xs) ++ ys = x :: (xs ++ ys) := rfl
    rw [hc, emitInstrs_cons, emitInstrs_cons]
    simp only [ih]
    cases hr : resolveInstr d t off x with
    | none => rfl
    | some r =>
      dsimp only
      cases hbs : r.assemble with
      | none => rfl
      | some bs =>
        dsimp only
        cases h1 : emitInstrs d t xs (off + r.size) with
        | none => rfl
        | some p =>
          obtain ⟨c, lns, f⟩ := p
          dsimp only
          cases h2 : emitInstrs d t ys f with
          | none => rfl
          | some q =>
            obtain ⟨c2, lns2, f2⟩ := q
            simp

theorem emitBlocks_eq (d : OpDesc) (t : List (Nat × Nat)) :
    ∀ (bs : List Block) (off : Nat),
      emitBlocks d t bs off =
        (emitInstrs d t (flattenBlocks bs) off).map (fun p => (p.1, p.2.1)) := by
  intro bs
  induction bs with
  | nil =>
    intro off
    simp [emitBlocks, flattenBlocks, emitInstrs]
  | cons b bs ih =>
    intro off
    have hflat : flattenBlocks (b :: bs) = b.instrs ++ flattenBlocks bs := by
      simp [flattenBlocks]
    rw [hflat]
    show emitBlocks d t (b :: bs) off = _
    rw [emitInstrs_append]
    show (match emitInstrs d t b.instrs off with
      | none => none
      | some (c, lns, fin) =>
        match emitBlocks d t bs fin with
        | none => none
        | some (c2, lns2) => some (c ++ c2, lns ++ lns2)) = _
    cases h1 : emitInstrs d t b.instrs off with
    | none => rfl
    | some p =>
      obtain ⟨c, lns, f⟩ := p
      dsimp only
      rw [ih f]
      cases h2 : emitInstrs d t (flattenBlocks bs) f with
      | none => rfl
      | some q =>
        obtain ⟨c2, lns2, f2⟩ := q
        rfl

theorem emit_resolve (d : OpDesc) (t : List (Nat × Nat)) :
    ∀ (is : List Instr) (off : Nat) (c : List Nat) (lns : List (Nat × Int)) (f : Nat),
      emitInstrs d t is off = some (c, lns, f) →
      ∃ rs, resolveList d t is off = some rs ∧ reEnc rs = some c ∧
        rs.map strip = rs.map strip := by
  intro is
  induction is with
  | nil =>
    intro off c lns f h
    injection h with h2
    cases h2
    exact ⟨[], rfl, rfl, rfl⟩
  | cons i is ih =>
    intro off c lns f h
    rw [emitInstrs_cons] at h
    split at h
    next => cases h
    next r hr =>
      split at h
      next => cases h
      next bs hbs =>
        split at h
        next => cases h
        next c2 lns2 fin2 hrec =>
          injection h with h2
          cases h2
          obtain ⟨rs, hrl, hre, -⟩ := ih _ _ _ _ hrec
          refine ⟨r :: rs, ?_, ?_, rfl⟩
          · simp only [resolveList, hr, hrl]
          · simp only [reEnc, hbs, hre]

/-! Decoding what the emitter produced. -/

theorem assemble_some (i : Instr) (bs : List Nat) (h : i.assemble = some bs) :
    i.op ≤ 255 ∧
    ((∃ n : Int, i.arg = some (.intArg n) ∧ 0 ≤ n ∧ n ≤ 65535 ∧
        bs = [i.op, n.toNat % 256, n.toNat / 256]) ∨
      (i.arg = none ∧ bs = [i.op])) := by
  unfold Instr.assemble at h
  cases harg : i.arg with
  | none =>
    simp only [harg] at h
    split_ifs at h with hop
    injection h with h2
    exact ⟨hop, Or.inr ⟨rfl, h2.symm⟩⟩
  | some a =>
    cases a with
    | labelArg l =>
      simp only [harg] at h
      exact Option.noConfusion h
    | intArg n =>
      simp only [harg] at h
      split_ifs at h with hr
      injection h with h2
      exact ⟨hr.2.2, Or.inl ⟨n, rfl, hr.1, hr.2.1, h2.symm⟩⟩

theorem get_jump_target_int (d : OpDesc) (i : Instr) (n : Int) (off : Nat)
    (h : i.arg = some (.intArg n)) :
    i.get_jump_target d off =
      .ok (if i.op ∈ d.hasjrel then some ((off : Int) + i.size + n)
        else if i.op ∈ d.hasjabs then some n else none) := by
  unfold Instr.get_jump_target
  simp only [h]
  split_ifs <;> rfl

theorem get_jump_target_noarg (d : OpDesc) (i : Instr) (off : Nat)
    (h : i.arg = none) (hrel : i.op ∉ d.hasjrel) (habs : i.op ∉ d.hasjabs) :
    i.get_jump_target d off = .ok none := by
  unfold Instr.get_jump_target
  simp only [h, if_neg hrel, if_neg habs]

theorem byte_decode (n : Int) (h0 : 0 ≤ n) (hub : n ≤ 65535) :
    ((n.toNat % 256 : Nat) : Int) + ((n.toNat / 256 : Nat) : Int) * 256 = n := by
  have h2 := Nat.mod_add_div n.toNat 256
  have h3 : (n.toNat : Int) = n := Int.toNat_of_nonneg h0
  have h4 : n.toNat ≤ 65535 := by omega
  push_cast
  omega


theorem scanGo_cons_noarg (d : OpDesc) (ls : Nat → Option Int) (op : Nat)
    (rest : List Nat) (off : Nat) (lineno : Int) (h : ¬ d.haveArgument ≤ op) :
    scanGo d ls (op :: rest) off lineno =
      (let line : Int := match ls off with | some l => l | none => lineno
       let i : Instr := ⟨line, op, none⟩
       match i.get_jump_target d off with
       | .error _ => none
       | .ok t =>
         match scanGo d ls rest (off + i.size) line with
         | none => none
         | some (is, ts) => some (i :: is, t.toList ++ ts)) := by
  rcases rest with - | ⟨b1, - | ⟨b2, rest2⟩⟩ <;> exact if_neg h

theorem scanGo_cons_arg (d : OpDesc) (ls : Nat → Option Int) (op b1 b2 : Nat)
    (rest : List Nat) (off : Nat) (lineno : Int) (h : d.haveArgument ≤ op) :
    scanGo d ls (op :: b1 :: b2 :: rest) off lineno =
      (let line : Int := match ls off with | some l => l | none => lineno
       let i : Instr := ⟨line, op, some (.intArg ((b1 : Int) + b2 * 256))⟩
       match i.get_jump_target d off with
       | .error _ => none
       | .ok t =>
         match scanGo d ls rest (off + i.size) line with
         | none => none
         | some (is, ts) => some (i :: is, t.toList ++ ts)) := by
  exact if_pos h

/-- The central decode lemma: the scanner, run over exactly the bytes the
emitter produced for a resolved list `rs`, succeeds, collects exactly the
jump targets of the decoded list, and decodes instructions that agree
with `rs` up to line numbers. -/
theorem scan_of_reEnc (d : OpDesc) (ls : Nat → Option Int) :
    ∀ (rs : List Instr) (c : List Nat) (off : Nat) (lineno : Int),
      reEnc rs = some c →
      (∀ r ∈ rs, (r.arg.isSome = true ↔ d.haveArgument ≤ r.op) ∧
        (isJumpOp d r.op → r.arg.isSome = true)) →
      ∃ is', scanGo d ls c off lineno = some (is', tsOf d is' off) ∧
        is'.map strip = rs.map strip := by
  intro rs
  induction rs with
  | nil =>
    intro c off lineno hre hok
    injection hre with h2
    cases h2
    exact ⟨[], rfl, rfl⟩
  | cons r rs ih =>
    intro c off lineno hre hok
    have hokr := hok r (List.mem_cons_self _ _)
    unfold reEnc at hre
    cases hbs : r.assemble with
    | none => rw [hbs] at hre; cases hre
    | some bs =>
      rw [hbs] at hre
      cases hrec : reEnc rs with
      | none => rw [hrec] at hre; cases hre
      | some c2 =>
        rw [hrec] at hre
        injection hre with h2
        cases h2
        obtain ⟨hop, hshape⟩ := assemble_some r bs hbs
        rcases hshape with ⟨n, harg, hn0, hn1, rfl⟩ | ⟨harg, rfl⟩
        · -- operand present: three bytes
          have hHA : d.haveArgument ≤ r.op := hokr.1.mp (by simp [harg])
          obtain ⟨is2, hscan2, hstrip2⟩ :=
            ih c2 (off + 3) (match ls off with | some l => l | none => lineno)
              hrec (fun r2 hr2 => hok r2 (List.mem_cons_of_mem _ hr2))
          set line := (match ls off with | some l => l | none => lineno) with hline
          set i : Instr := ⟨line, r.op, some (.intArg n)⟩ with hi
          have hival : ((((n.toNat % 256 : Nat)) : Int) + ((n.toNat / 256 : Nat)) * 256) = n :=
            byte_decode n hn0 hn1
          have hisz : i.size = 3 := by simp [hi, Instr.size]
          have hstripi : strip i = strip r := by simp [strip, hi, harg]
          have hgt := get_jump_target_int d i n off (by simp [hi])
          refine ⟨i :: is2, ?_, by simp only [List.map_cons, hstrip2, hstripi]⟩
          show scanGo d ls (r.op :: (n.toNat % 256) :: (n.toNat / 256) :: c2) off lineno =
            some (i :: is2, tsOf d (i :: is2) off)
          rw [scanGo_cons_arg d ls _ _ _ _ _ _ hHA]
          dsimp only
          rw [hival, ← hline, ← hi, hgt]
          dsimp only
          rw [hisz, hscan2]
          dsimp only
          have hts : tsOf d (i :: is2) off =
              (if i.op ∈ d.hasjrel then some ((off : Int) + i.size + n)
                else if i.op ∈ d.hasjabs then some n else none).toList ++
                tsOf d is2 (off + 3) := by
            rw [tsOf, hgt, hisz]
            split_ifs <;> simp
          rw [hts]
          simp [hisz]
        · -- no operand: one byte
          have hnHA : ¬ d.haveArgument ≤ r.op := by
            intro hcon
            have := hokr.1.mpr hcon
            rw [harg] at this
            cases this
          have hnj : ¬ isJumpOp d r.op := by
            intro hcon
            have := hokr.2 hcon
            rw [harg] at this
            cases this
          obtain ⟨is2, hscan2, hstrip2⟩ :=
            ih c2 (off + 1) (match ls off with | some l => l | none => lineno)
              hrec (fun r2 hr2 => hok r2 (List.mem_cons_of_mem _ hr2))
          set line := (match ls off with | some l => l | none => lineno) with hline
          set i : Instr := ⟨line, r.op, none⟩ with hi
          have hisz : i.size = 1 := by simp [hi, Instr.size]
          have hstripi : strip i = strip r := by simp [strip, hi, harg]
          have hgt := get_jump_target_noarg d i off (by simp [hi])
            (fun hc => hnj (Or.inl hc)) (fun hc => hnj (Or.inr hc))
          refine ⟨i :: is2, ?_, by simp only [List.map_cons, hstrip2, hstripi]⟩
          show scanGo d ls (r.op :: c2) off lineno =
            some (i :: is2, tsOf d (i :: is2) off)
          rw [scanGo_cons_noarg d ls _ _ _ _ hnHA]
          dsimp only
          rw [← hline, ← hi, hgt]
          dsimp only
          rw [hisz, hscan2]
          dsimp only
          have hts : tsOf d (i :: is2) off = tsOf d is2 (off + 1) := by
            rw [tsOf, hgt, hisz]
            simp
          rw [hts]
          simp [hisz]

/-! Partition of the decoded instructions into blocks. -/

theorem groupGo_flatten (starts : List Int) :
    ∀ (is : List Instr) (off : Nat) (cur : List Instr),
      (groupGo starts is off cur).flatten = cur ++ is := by
  intro is
  induction is with
  | nil => intro off cur; simp [groupGo]
  | cons i is ih =>
    intro off cur
    rw [groupGo]
    split_ifs with h
    · simp only [List.flatten_cons, ih]
      simp
    · rw [ih]
      simp

theorem groupGo_ne_nil (starts : List Int) :
    ∀ (is : List Instr) (off : Nat) (cur : List Instr),
      groupGo starts is off cur ≠ [] := by
  intro is
  induction is with
  | nil => intro off cur; simp [groupGo]
  | cons i is ih =>
    intro off cur
    rw [groupGo]
    split_ifs with h
    · simp
    · exact ih _ _

theorem groupGo_nonempty (starts : List Int) :
    ∀ (is : List Instr) (off : Nat) (cur : List Instr), cur ≠ [] →
      ∀ g ∈ groupGo starts is off cur, g ≠ [] := by
  intro is
  induction is with
  | nil =>
    intro off cur hcur g hg
    rw [groupGo] at hg
    simp at hg
    subst hg
    exact hcur
  | cons i is ih =>
    intro off cur hcur g hg
    rw [groupGo] at hg
    split_ifs at hg with h
    · rcases List.mem_cons.mp hg with rfl | hg2
      · exact hcur
      · exact ih _ _ (by simp) g hg2
    · exact ih _ _ (by simp) g hg

theorem getLastD_mem {α : Type _} (l : List α) (x : α) (h : l ≠ []) :
    l.getLastD x ∈ l := by
  induction l with
  | nil => exact absurd rfl h
  | cons a t ih =>
    cases t with
    | nil => simp [List.getLastD]
    | cons b t2 =>
      have := ih (by simp)
      simp only [List.getLastD] at this ⊢
      exact List.mem_cons_of_mem _ this

end Bytecode
namespace Bytecode

theorem blockMapGo_groupGo (starts : List Int) :
    ∀ (is : List Instr) (cur : List Instr) (off curStart k : Nat),
      off = curStart + sizeSum cur →
      blockMapGo (groupGo starts is off cur) curStart k =
        ((curStart : Int), k) :: splitsOf starts is off (k + 1) := by
  intro is
  induction is with
  | nil =>
    intro cur off curStart k hoff
    rw [groupGo]
    simp [blockMapGo, splitsOf]
  | cons i is ih =>
    intro cur off curStart k hoff
    rw [groupGo]
    split_ifs with h
    · rw [blockMapGo]
      have hfold : cur.foldl (fun o i => o + i.size) curStart = off := by
        rw [show cur.foldl (fun o i => o + i.size) curStart = offAfter curStart cur from rfl]
        rw [offAfter_eq]
        omega
      rw [hfold]
      rw [ih [i] (off + i.size) off (k + 1) (by simp [sizeSum])]
      rw [splitsOf, if_pos h]
    · rw [ih (cur ++ [i]) (off + i.size) curStart k
        (by rw [sizeSum_append, sizeSum_cons, sizeSum_nil]; omega)]
      rw [splitsOf, if_neg h]

theorem splitsOf_lookup (starts : List Int) :
    ∀ (is : List Instr) (off k : Nat) (v : Nat),
      v ∈ offsetsOf is off → (v : Int) ∈ starts → v ≠ 0 →
      ∃ k', (splitsOf starts is off k).lookup (v : Int) = some k' := by
  intro is
  induction is with
  | nil => intro off k v hv hs h0; simp [offsetsOf] at hv
  | cons i is ih =>
    intro off k v hv hs h0
    rw [offsetsOf] at hv
    rcases List.mem_cons.mp hv with rfl | hv2
    · rw [splitsOf, if_pos ⟨h0, hs⟩]
      refine ⟨k, ?_⟩
      simp [List.lookup]
    · have hge := mem_offsetsOf_ge is _ _ hv2
      have hlt : off < v := by
        have := size_pos i
        omega
      rw [splitsOf]
      split_ifs with h
      · have hne : ((v : Int) == (off : Int)) = false := by
          simp only [beq_eq_false_iff_ne, ne_eq]
          intro hcon
          have hvo : v = off := by exact_mod_cast hcon
          omega
        obtain ⟨k', hk'⟩ := ih (off + i.size) (k + 1) v hv2 hs h0
        refine ⟨k', ?_⟩
        simp only [List.lookup, hne]
        exact hk'
      · exact ih _ _ _ hv2 hs h0

theorem blockMapGo_inv :
    ∀ (gs : List (List Instr)) (bs : List Block) (off k : Nat),
      bs.map Block.label = List.range' k gs.length →
      bs.map (fun b => sizeSum b.instrs) = gs.map sizeSum →
      ∀ (T : Int) (lbl : Nat), (blockMapGo gs off k).lookup T = some lbl →
        ∃ v : Nat, T = (v : Int) ∧ (lbl, v) ∈ blockOffsets bs off := by
  intro gs
  induction gs with
  | nil =>
    intro bs off k h1 h2 T lbl h
    simp [blockMapGo, List.lookup] at h
  | cons g gs ih =>
    intro bs off k h1 h2 T lbl h
    cases bs with
    | nil => simp at h1
    | cons b bs2 =>
      simp only [List.map_cons, List.length_cons, List.range'] at h1 h2
      injection h1 with hb1 hb2
      injection h2 with hs1 hs2
      rw [blockMapGo] at h
      by_cases hT : T = (off : Int)
      · subst hT
        simp only [List.lookup, beq_self_eq_true] at h
        injection h with h3
        subst h3
        refine ⟨off, rfl, ?_⟩
        rw [blockOffsets, hb1]
        exact List.mem_cons_self _ _
      · have hne : (T == (off : Int)) = false := by simpa using hT
        simp only [List.lookup, hne] at h
        have hfold : g.foldl (fun o i => o + i.size) off = off + sizeSum g := by
          rw [show g.foldl (fun o i => o + i.size) off = offAfter off g from rfl, offAfter_eq]
        rw [hfold] at h
        obtain ⟨v, hv1, hv2⟩ := ih bs2 (off + sizeSum g) (k + 1) hb2 hs2 T lbl h
        refine ⟨v, hv1, ?_⟩
        rw [blockOffsets, hs1]
        exact List.mem_cons_of_mem _ hv2

end Bytecode
namespace Bytecode

theorem replace_arg_op (i : Instr) (a : Option RawArg) : (i.replace_arg a).op = i.op := rfl

theorem replace_arg_size_some (i : Instr) (a : RawArg) :
    (i.replace_arg (some a)).size = 3 := rfl

/-- Jump targets of a resolved list are exactly looked-up label offsets. -/
theorem tsOf_resolveList (d : OpDesc) (tgts : List (Nat × Nat)) :
    ∀ (is : List Instr) (off : Nat) (rs : List Instr),
      resolveList d tgts is off = some rs →
      (∀ i ∈ is, (isJumpOp d i.op → ∃ l, i.arg = some (.labelArg l)) ∧
        (¬ isJumpOp d i.op → noLabel i.arg)) →
      ∀ T ∈ tsOf d rs off, ∃ l v, tgts.lookup l = some v ∧ T = (v : Int) := by
  intro is
  induction is with
  | nil =>
    intro off rs h hok T hT
    injection h with h2
    subst h2
    simp [tsOf] at hT
  | cons i is ih =>
    intro off rs h hok T hT
    have hoki := hok i (List.mem_cons_self _ _)
    simp only [resolveList] at h
    cases hr : resolveInstr d tgts off i with
    | none => rw [hr] at h; cases h
    | some r =>
      rw [hr] at h
      dsimp only at h
      cases hrl : resolveList d tgts is (off + r.size) with
      | none => rw [hrl] at h; cases h
      | some rs2 =>
        rw [hrl] at h
        injection h with h2
        subst h2
        have hshape := resolveInstr_shape d tgts off i r hr
        have hsz : r.size = i.size := hshape.2.2.2
        rw [tsOf] at hT
        rcases List.mem_append.mp hT with hhd | htl
        · -- head contribution
          by_cases hj : isJumpOp d i.op
          · obtain ⟨l, harg⟩ := hoki.1 hj
            unfold resolveInstr at hr
            simp only [harg] at hr
            cases hlk : tgts.lookup l with
            | none => rw [hlk] at hr; cases hr
            | some v =>
              rw [hlk] at hr
              injection hr with hr2
              subst hr2
              have hrarg : (i.replace_arg (some (.intArg
                  (if i.op ∈ d.hasjrel then (v : Int) - ((off : Int) + i.size) else v)))).arg =
                  some (.intArg (if i.op ∈ d.hasjrel then (v : Int) - ((off : Int) + i.size) else v)) := rfl
              rw [get_jump_target_int d _ _ off hrarg] at hhd
              by_cases hrel : i.op ∈ d.hasjrel
              · simp only [replace_arg_op, if_pos hrel] at hhd
                simp only [List.mem_singleton] at hhd
                refine ⟨l, v, hlk, ?_⟩
                have h3 : i.size = 3 := by simp [Instr.size, harg]
                rw [hhd, replace_arg_size_some, h3]
                push_cast
                ring
              · have habs : i.op ∈ d.hasjabs := hj.resolve_left hrel
                simp only [replace_arg_op, if_neg hrel, if_pos habs] at hhd
                simp only [List.mem_singleton, if_neg hrel] at hhd
                exact ⟨l, v, hlk, hhd⟩
          · -- non-jump head contributes nothing
            have hnl := hoki.2 hj
            rw [resolveInstr_none_or_int d tgts off i hnl] at hr
            injection hr with hr2
            subst hr2
            cases harg : i.arg with
            | none =>
              rw [get_jump_target_noarg d i off harg
                (fun hc => hj (Or.inl hc)) (fun hc => hj (Or.inr hc))] at hhd
              simp at hhd
            | some a =>
              cases a with
              | labelArg l => rw [harg] at hnl; simp [noLabel] at hnl
              | intArg n =>
                rw [get_jump_target_int d i n off harg] at hhd
                rw [if_neg (fun hc => hj (Or.inl hc)), if_neg (fun hc => hj (Or.inr hc))] at hhd
                simp at hhd
        · -- tail contribution
          exact ih (off + r.size) rs2 hrl
            (fun i2 hi2 => hok i2 (List.mem_cons_of_mem _ hi2)) T htl

theorem rewriteInstrs_cons (d : OpDesc) (bmap : List (Int × Nat)) (i : Instr)
    (is : List Instr) (off : Nat) :
    rewriteInstrs d bmap (i :: is) off =
      match i.get_jump_target d off with
      | .error _ => none
      | .ok none =>
        match rewriteInstrs d bmap is (off + i.size) with
        | none => none
        | some (is', fin) => some (i :: is', fin)
      | .ok (some t) =>
        match bmap.lookup t with
        | none => none
        | some lbl =>
          match rewriteInstrs d bmap is (off + i.size) with
          | none => none
          | some (is', fin) => some (i.replace_arg (some (.labelArg lbl)) :: is', fin) := rfl

/-- The combined rewrite / re-emit lemma: over a decoded list whose
operands never reference labels, whose jump targets all have a block in
`bmap` whose label resolves back (through `tgts2`) to the same offset,
rewriting succeeds and re-assembling the rewritten list reproduces the
original bytes. -/
theorem rewrite_emit (d : OpDesc) (bmap : List (Int × Nat)) (tgts2 : List (Nat × Nat)) :
    ∀ (is : List Instr) (off : Nat) (c : List Nat),
      reEnc is = some c →
      (∀ i ∈ is, (i.arg.isSome = true ↔ d.haveArgument ≤ i.op) ∧
        (isJumpOp d i.op → i.arg.isSome = true) ∧ noLabel i.arg) →
      (∀ T ∈ tsOf d is off, ∃ lbl v, bmap.lookup T = some lbl ∧
        tgts2.lookup lbl = some v ∧ (v : Int) = T) →
      ∃ is2, rewriteInstrs d bmap is off = some (is2, off + sizeSum is) ∧
        ∃ lns2, emitInstrs d tgts2 is2 off = some (c, lns2, off + sizeSum is) := by
  intro is
  induction is with
  | nil =>
    intro off c hre hok htgt
    injection hre with h2
    subst h2
    exact ⟨[], by simp [rewriteInstrs, sizeSum], [], by simp [emitInstrs, sizeSum]⟩
  | cons i is ih =>
    intro off c hre hok htgt
    have hoki := hok i (List.mem_cons_self _ _)
    unfold reEnc at hre
    cases hbs : i.assemble with
    | none => rw [hbs] at hre; cases hre
    | some bs =>
      rw [hbs] at hre
      cases hrec : reEnc is with
      | none => rw [hrec] at hre; cases hre
      | some c2 =>
        rw [hrec] at hre
        injection hre with h2
        subst h2
        have htl : ∀ T ∈ tsOf d is (off + i.size), ∃ lbl v, bmap.lookup T = some lbl ∧
            tgts2.lookup lbl = some v ∧ (v : Int) = T := by
          intro T hT
          exact htgt T (by rw [tsOf]; exact List.mem_append_right _ hT)
        obtain ⟨is2, hrw2, lns2, hem2⟩ := ih (off + i.size) c2 hrec
          (fun i2 hi2 => hok i2 (List.mem_cons_of_mem _ hi2)) htl
        obtain ⟨hop255, hshape⟩ := assemble_some i bs hbs
        rcases hshape with ⟨n, harg, hn0, hn1, rfl⟩ | ⟨harg, rfl⟩
        · -- operand is an integer
          have hgt := get_jump_target_int d i n off harg
          have h3 : i.size = 3 := by simp [Instr.size, harg]
          by_cases hrel : i.op ∈ d.hasjrel
          · -- relative jump
            rw [if_pos hrel] at hgt
            have hT : ((off : Int) + i.size + n) ∈ tsOf d (i :: is) off := by
              rw [tsOf, hgt]
              exact List.mem_append_left _ (List.mem_singleton.mpr rfl)
            obtain ⟨lbl, v, hlbl, hv, hvT⟩ := htgt _ hT
            have hval : (if (i.replace_arg (some (.labelArg lbl))).op ∈ d.hasjrel
                then (v : Int) - ((off : Int) + (i.replace_arg (some (.labelArg lbl))).size)
                else (v : Int)) = n := by
              rw [replace_arg_op, if_pos hrel, replace_arg_size_some]
              rw [h3] at hvT
              omega
            have hback : (i.replace_arg (some (.labelArg lbl))).replace_arg
                (some (.intArg n)) = i := by
              cases i with
              | mk ln op arg =>
                simp only [Instr.replace_arg] at harg ⊢
                simp [harg]
            have hres : resolveInstr d tgts2 off (i.replace_arg (some (.labelArg lbl))) =
                some i := by
              rw [resolveInstr_label d tgts2 off _ lbl v rfl hv, hval, hback]
            refine ⟨i.replace_arg (some (.labelArg lbl)) :: is2, ?_, (off, i.lineno) :: lns2, ?_⟩
            · simp only [rewriteInstrs_cons, hgt, hlbl, hrw2, sizeSum_cons, Nat.add_assoc]
            · simp only [emitInstrs_cons, hres, hbs, hem2, sizeSum_cons, Nat.add_assoc]
          · by_cases habs : i.op ∈ d.hasjabs
            · -- absolute jump
              rw [if_neg hrel, if_pos habs] at hgt
              have hT : n ∈ tsOf d (i :: is) off := by
                rw [tsOf, hgt]
                exact List.mem_append_left _ (List.mem_singleton.mpr rfl)
              obtain ⟨lbl, v, hlbl, hv, hvT⟩ := htgt _ hT
              have hval : (if (i.replace_arg (some (.labelArg lbl))).op ∈ d.hasjrel
                  then (v : Int) - ((off : Int) + (i.replace_arg (some (.labelArg lbl))).size)
                  else (v : Int)) = n := by
                rw [replace_arg_op, if_neg hrel]
                exact hvT
              have hback : (i.replace_arg (some (.labelArg lbl))).replace_arg
                  (some (.intArg n)) = i := by
                cases i with
                | mk ln op arg =>
                  simp only [Instr.replace_arg] at harg ⊢
                  simp [harg]
              have hres : resolveInstr d tgts2 off (i.replace_arg (some (.labelArg lbl))) =
                  some i := by
                rw [resolveInstr_label d tgts2 off _ lbl v rfl hv, hval, hback]
              refine ⟨i.replace_arg (some (.labelArg lbl)) :: is2, ?_, (off, i.lineno) :: lns2, ?_⟩
              · simp only [rewriteInstrs_cons, hgt, hlbl, hrw2, sizeSum_cons, Nat.add_assoc]
              · simp only [emitInstrs_cons, hres, hbs, hem2, sizeSum_cons, Nat.add_assoc]
            · -- int operand on a non-jump opcode: kept verbatim
              rw [if_neg hrel, if_neg habs] at hgt
              have hres : resolveInstr d tgts2 off i = some i :=
                resolveInstr_none_or_int d tgts2 off i hoki.2.2
              refine ⟨i :: is2, ?_, (off, i.lineno) :: lns2, ?_⟩
              · simp only [rewriteInstrs_cons, hgt, hrw2, sizeSum_cons, Nat.add_assoc]
              · simp only [emitInstrs_cons, hres, hbs, hem2, sizeSum_cons, Nat.add_assoc]
        · -- no operand: a non-jump opcode, kept verbatim
          have hnj : ¬ isJumpOp d i.op := by
            intro hc
            have := hoki.2.1 hc
            rw [harg] at this
            cases this
          have hgt := get_jump_target_noarg d i off harg
            (fun hc => hnj (Or.inl hc)) (fun hc => hnj (Or.inr hc))
          have hres : resolveInstr d tgts2 off i = some i :=
            resolveInstr_none_or_int d tgts2 off i hoki.2.2
          refine ⟨i :: is2, ?_, (off, i.lineno) :: lns2, ?_⟩
          · simp only [rewriteInstrs_cons, hgt, hrw2, sizeSum_cons, Nat.add_assoc]
          · simp only [emitInstrs_cons, hres, hbs, hem2, sizeSum_cons, Nat.add_assoc]

end Bytecode
namespace Bytecode

/-- A concrete jump target implies a present operand. -/
theorem get_jump_target_some_isSome (d : OpDesc) (i : Instr) (off : Nat) (t : Int)
    (h : i.get_jump_target d off = .ok (some t)) : i.arg.isSome = true := by
  unfold Instr.get_jump_target at h
  cases harg : i.arg with
  | none =>
    rw [harg] at h
    dsimp only at h
    split_ifs at h
    all_goals cases h
  | some a =>
    cases a with
    | intArg n => simp [harg]
    | labelArg l =>
      rw [harg] at h
      dsimp only at h
      cases h

/-- Resolution never leaves a `Label` operand behind. -/
theorem resolveInstr_noLabel (d : OpDesc) (tgts : List (Nat × Nat)) (off : Nat)
    (i r : Instr) (h : resolveInstr d tgts off i = some r) : noLabel r.arg := by
  unfold resolveInstr at h
  cases harg : i.arg with
  | none =>
    rw [harg] at h
    injection h with h2
    subst h2
    rw [harg]
    trivial
  | some a =>
    cases a with
    | intArg n =>
      rw [harg] at h
      injection h with h2
      subst h2
      rw [harg]
      trivial
    | labelArg l =>
      rw [harg] at h
      dsimp only at h
      cases hl : tgts.lookup l with
      | none => rw [hl] at h; cases h
      | some v =>
        rw [hl] at h
        injection h with h2
        subst h2
        trivial

/-- Resolution preserves the per-instruction byte sizes. -/
theorem resolveList_sizes (d : OpDesc) (tgts : List (Nat × Nat)) :
    ∀ (is : List Instr) (off : Nat) (rs : List Instr),
      resolveList d tgts is off = some rs →
      rs.map Instr.size = is.map Instr.size := by
  intro is
  induction is with
  | nil =>
    intro off rs h
    injection h with h2
    subst h2
    rfl
  | cons i is ih =>
    intro off rs h
    simp only [resolveList] at h
    cases hr : resolveInstr d tgts off i with
    | none => rw [hr] at h; cases h
    | some r =>
      rw [hr] at h
      dsimp only at h
      cases hrl : resolveList d tgts is (off + r.size) with
      | none => rw [hrl] at h; cases h
      | some rs2 =>
        rw [hrl] at h
        injection h with h2
        subst h2
        have hsz := (resolveInstr_shape d tgts off i r hr).2.2.2
        simp only [List.map_cons, hsz, ih _ _ hrl]

/-- The category facts each resolved instruction satisfies, transported
from the originals. -/
theorem resolveList_props (d : OpDesc) (tgts : List (Nat × Nat)) :
    ∀ (is : List Instr) (off : Nat) (rs : List Instr),
      resolveList d tgts is off = some rs →
      (∀ i ∈ is, (i.arg.isSome = true ↔ d.haveArgument ≤ i.op) ∧
        (isJumpOp d i.op → i.arg.isSome = true)) →
      ∀ r ∈ rs, (r.arg.isSome = true ↔ d.haveArgument ≤ r.op) ∧
        (isJumpOp d r.op → r.arg.isSome = true) ∧ noLabel r.arg := by
  intro is
  induction is with
  | nil =>
    intro off rs h hok r hr
    injection h with h2
    subst h2
    cases hr
  | cons i is ih =>
    intro off rs h hok r hr
    simp only [resolveList] at h
    cases hri : resolveInstr d tgts off i with
    | none => rw [hri] at h; cases h
    | some r0 =>
      rw [hri] at h
      dsimp only at h
      cases hrl : resolveList d tgts is (off + r0.size) with
      | none => rw [hrl] at h; cases h
      | some rs2 =>
        rw [hrl] at h
        injection h with h2
        subst h2
        rcases List.mem_cons.mp hr with rfl | hr2
        · obtain ⟨hop, -, hsome, -⟩ := resolveInstr_shape d tgts off i r hri
          have hoki := hok i (List.mem_cons_self _ _)
          refine ⟨?_, ?_, resolveInstr_noLabel d tgts off i r hri⟩
          · rw [hsome, hop]; exact hoki.1
          · rw [hop, hsome]; exact hoki.2
        · exact ih _ _ hrl (fun j hj => hok j (List.mem_cons_of_mem _ hj)) r hr2

/-- Instruction offsets only depend on the size sequence. -/
theorem offsetsOf_of_sizes :
    ∀ (is js : List Instr) (off : Nat), is.map Instr.size = js.map Instr.size →
      offsetsOf is off = offsetsOf js off := by
  intro is
  induction is with
  | nil =>
    intro js off h
    cases js with
    | nil => rfl
    | cons j js => simp at h
  | cons i is ih =>
    intro js off h
    cases js with
    | nil => simp at h
    | cons j js =>
      simp only [List.map_cons, List.cons.injEq] at h
      simp only [offsetsOf, h.1, ih js _ h.2]

/-- The total size only depends on the size sequence. -/
theorem sizeSum_of_sizes (is js : List Instr) (h : is.map Instr.size = js.map Instr.size) :
    sizeSum is = sizeSum js := by
  unfold sizeSum
  rw [h]

/-- Jump rewriting preserves the size sequence and threads the offset. -/
theorem rewriteInstrs_sizes (d : OpDesc) (bmap : List (Int × Nat)) :
    ∀ (is : List Instr) (off : Nat) (is2 : List Instr) (fin : Nat),
      rewriteInstrs d bmap is off = some (is2, fin) →
      is2.map Instr.size = is.map Instr.size ∧ fin = off + sizeSum is := by
  intro is
  induction is with
  | nil =>
    intro off is2 fin h
    injection h with h2
    injection h2 with h3 h4
    subst h3
    subst h4
    exact ⟨rfl, by simp [sizeSum]⟩
  | cons i is ih =>
    intro off is2 fin h
    rw [rewriteInstrs_cons] at h
    split at h
    next => cases h
    next heq =>
      -- target `none`: the instruction is kept
      split at h
      next => cases h
      next is3 f hrec =>
        injection h with h2
        injection h2 with h3 h4
        subst h3
        subst h4
        obtain ⟨hm, hf⟩ := ih _ _ _ hrec
        refine ⟨by simp [hm], ?_⟩
        rw [hf, sizeSum_cons]
        omega
    next t heq =>
      -- concrete target: the operand is replaced by a label
      split at h
      next => cases h
      next lbl hlbl =>
        split at h
        next => cases h
        next is3 f hrec =>
          injection h with h2
          injection h2 with h3 h4
          subst h3
          subst h4
          obtain ⟨hm, hf⟩ := ih _ _ _ hrec
          have hiso := get_jump_target_some_isSome d i off t heq
          have hsz : (i.replace_arg (some (.labelArg lbl))).size = i.size := by
            simp [Instr.size, Instr.replace_arg, hiso]
          refine ⟨by simp [hm, hsz], ?_⟩
          rw [hf, sizeSum_cons]
          omega

theorem rewriteInstrs_append (d : OpDesc) (bmap : List (Int × Nat)) :
    ∀ (xs ys : List Instr) (off : Nat),
      rewriteInstrs d bmap (xs ++ ys) off =
        match rewriteInstrs d bmap xs off with
        | none => none
        | some (xs2, f) =>
          match rewriteInstrs d bmap ys f with
          | none => none
          | some (ys2, f2) => some (xs2 ++ ys2, f2) := by
  intro xs
  induction xs with
  | nil =>
    intro ys off
    show rewriteInstrs d bmap ys off = _
    simp only [rewriteInstrs]
    cases h : rewriteInstrs d bmap ys off with
    | none => rfl
    | some p =>
      obtain ⟨ys2, f2⟩ := p
      simp
  | cons x xs ih =>
    intro ys off
    have hc : (x :: xs) ++ ys = x :: (xs ++ ys) := rfl
    rw [hc, rewriteInstrs_cons, rewriteInstrs_cons]
    cases hgt : x.get_jump_target d off with
    | error e => rfl
    | ok topt =>
      cases topt with
      | none =>
        dsimp only
        rw [ih]
        cases h1 : rewriteInstrs d bmap xs (off + x.size) with
        | none => rfl
        | some p =>
          obtain ⟨xs2, f⟩ := p
          dsimp only
          cases h2 : rewriteInstrs d bmap ys f with
          | none => rfl
          | some q =>
            obtain ⟨ys2, f2⟩ := q
            rfl
      | some t =>
        dsimp only
        cases hlbl : bmap.lookup t with
        | none => rfl
        | some lbl =>
          dsimp only
          rw [ih]
          cases h1 : rewriteInstrs d bmap xs (off + x.size) with
          | none => rfl
          | some p =>
            obtain ⟨xs2, f⟩ := p
            dsimp only
            cases h2 : rewriteInstrs d bmap ys f with
            | none => rfl
            | some q =>
              obtain ⟨ys2, f2⟩ := q
              rfl

/-- Rewriting succeeds as soon as every collected target has a block. -/
theorem rewrite_ok (d : OpDesc) (bmap : List (Int × Nat)) :
    ∀ (is : List Instr) (off : Nat),
      (∀ i ∈ is, (isJumpOp d i.op → i.arg.isSome = true) ∧ noLabel i.arg) →
      (∀ T ∈ tsOf d is off, ∃ lbl, bmap.lookup T = some lbl) →
      ∃ is2 fin, rewriteInstrs d bmap is off = some (is2, fin) := by
  intro is
  induction is with
  | nil => intro off hok htgt; exact ⟨[], off, rfl⟩
  | cons i is ih =>
    intro off hok htgt
    have hoki := hok i (List.mem_cons_self _ _)
    have htl : ∀ T ∈ tsOf d is (off + i.size), ∃ lbl, bmap.lookup T = some lbl := by
      intro T hT
      exact htgt T (by rw [tsOf]; exact List.mem_append_right _ hT)
    obtain ⟨is2, fin, hrec⟩ := ih (off + i.size)
      (fun j hj => hok j (List.mem_cons_of_mem _ hj)) htl
    cases harg : i.arg with
    | some a =>
      cases a with
      | labelArg l => rw [harg] at hoki; exact absurd hoki.2 (by simp [noLabel])
      | intArg n =>
        have hgt := get_jump_target_int d i n off harg
        by_cases hrel : i.op ∈ d.hasjrel
        · rw [if_pos hrel] at hgt
          have hT : ((off : Int) + i.size + n) ∈ tsOf d (i :: is) off := by
            rw [tsOf, hgt]
            exact List.mem_append_left _ (List.mem_singleton.mpr rfl)
          obtain ⟨lbl, hlbl⟩ := htgt _ hT
          refine ⟨i.replace_arg (some (.labelArg lbl)) :: is2, fin, ?_⟩
          rw [rewriteInstrs_cons, hgt]
          simp only [hlbl, hrec]
        · by_cases habs : i.op ∈ d.hasjabs
          · rw [if_neg hrel, if_pos habs] at hgt
            have hT : n ∈ tsOf d (i :: is) off := by
              rw [tsOf, hgt]
              exact List.mem_append_left _ (List.mem_singleton.mpr rfl)
            obtain ⟨lbl, hlbl⟩ := htgt _ hT
            refine ⟨i.replace_arg (some (.labelArg lbl)) :: is2, fin, ?_⟩
            rw [rewriteInstrs_cons, hgt]
            simp only [hlbl, hrec]
          · rw [if_neg hrel, if_neg habs] at hgt
            refine ⟨i :: is2, fin, ?_⟩
            rw [rewriteInstrs_cons, hgt]
            simp only [hrec]
    | none =>
      have hnj : ¬ isJumpOp d i.op := by
        intro hc
        have := hoki.1 hc
        rw [harg] at this
        cases this
      have hgt := get_jump_target_noarg d i off harg
        (fun hc => hnj (Or.inl hc)) (fun hc => hnj (Or.inr hc))
      refine ⟨i :: is2, fin, ?_⟩
      rw [rewriteInstrs_cons, hgt]
      simp only [hrec]

/-- Per-block rewriting succeeds exactly when flat rewriting does, and
preserves labels and block sizes. -/
theorem rewriteBlocks_of_flat (d : OpDesc) (bmap : List (Int × Nat)) :
    ∀ (bs : List Block) (off : Nat) (is2 : List Instr) (fin : Nat),
      rewriteInstrs d bmap (flattenBlocks bs) off = some (is2, fin) →
      ∃ bs', rewriteBlocks d bmap bs off = some bs' ∧
        flattenBlocks bs' = is2 ∧
        bs'.map Block.label = bs.map Block.label ∧
        bs'.map (fun b2 => sizeSum b2.instrs) = bs.map (fun b2 => sizeSum b2.instrs) := by
  intro bs
  induction bs with
  | nil =>
    intro off is2 fin h
    have h0 : flattenBlocks ([] : List Block) = [] := rfl
    rw [h0, rewriteInstrs] at h
    injection h with h2
    injection h2 with h3 h4
    subst h3
    exact ⟨[], rfl, rfl, rfl, rfl⟩
  | cons b bs ih =>
    intro off is2 fin h
    have hflat : flattenBlocks (b :: bs) = b.instrs ++ flattenBlocks bs := by
      simp [flattenBlocks]
    rw [hflat, rewriteInstrs_append] at h
    cases h1 : rewriteInstrs d bmap b.instrs off with
    | none => rw [h1] at h; cases h
    | some p =>
      obtain ⟨xs2, f⟩ := p
      rw [h1] at h
      dsimp only at h
      cases h2 : rewriteInstrs d bmap (flattenBlocks bs) f with
      | none => rw [h2] at h; cases h
      | some q =>
        obtain ⟨ys2, f2⟩ := q
        rw [h2] at h
        injection h with h3
        injection h3 with h4 h5
        subst h4
        subst h5
        obtain ⟨bs', hbs', hfl', hlab', hsz'⟩ := ih f ys2 f2 h2
        refine ⟨⟨b.label, xs2⟩ :: bs', ?_, ?_, ?_, ?_⟩
        · show (match rewriteInstrs d bmap b.instrs off with
            | none => none
            | some (is', fin') =>
              match rewriteBlocks d bmap bs fin' with
              | none => none
              | some bs2 => some (Block.mk b.label is' :: bs2)) = _
          rw [h1]
          dsimp only
          rw [hbs']
        · show xs2 ++ flattenBlocks bs' = xs2 ++ ys2
          rw [hfl']
        · simp [hlab']
        · have hszb : sizeSum xs2 = sizeSum b.instrs :=
            sizeSum_of_sizes _ _ (rewriteInstrs_sizes d bmap _ _ _ _ h1).1
          simp [hsz', hszb]

end Bytecode
namespace Bytecode

/-- The offset-filler loop leaves a remainder in `0..255` when fed a
nonnegative delta. -/
theorem fillOff_spec : ∀ (n : Nat) (x : Int), x.toNat = n → 0 ≤ x →
    0 ≤ (fillOff x).2 ∧ (fillOff x).2 ≤ 255 := by
  intro n
  induction n using Nat.strong_induction_on with
  | _ n ih =>
    intro x hn hx
    rw [fillOff]
    split_ifs with h
    · have hrec := ih (x - 255).toNat (by omega) (x - 255) rfl (by omega)
      cases hfr : fillOff (x - 255) with
      | mk bs r =>
        rw [hfr] at hrec
        exact hrec
    · exact ⟨hx, by omega⟩

/-- The negative-line filler loop leaves a remainder at least `-127`. -/
theorem fillNeg_spec : ∀ (n : Nat) (x : Int), (-x).toNat = n →
    -127 ≤ (fillNeg x).2 := by
  intro n
  induction n using Nat.strong_induction_on with
  | _ n ih =>
    intro x hn
    rw [fillNeg]
    split_ifs with h
    · have hrec := ih (-(x + 127)).toNat (by omega) (x + 127) rfl
      cases hfr : fillNeg (x + 127) with
      | mk bs r =>
        rw [hfr] at hrec
        exact hrec
    · omega

/-- The positive-line filler loop leaves a remainder at most `126`, and
keeps it at least `-127` when it started there. -/
theorem fillPos_spec : ∀ (n : Nat) (x : Int), x.toNat = n →
    (fillPos x).2 ≤ 126 ∧ (-127 ≤ x → -127 ≤ (fillPos x).2) := by
  intro n
  induction n using Nat.strong_induction_on with
  | _ n ih =>
    intro x hn
    rw [fillPos]
    split_ifs with h
    · have hrec := ih (x - 126).toNat (by omega) (x - 126) rfl
      cases hfr : fillPos (x - 126) with
      | mk bs r =>
        rw [hfr] at hrec
        exact ⟨hrec.1, fun _ => hrec.2 (by omega)⟩
    · exact ⟨by omega, fun h2 => h2⟩

/-- One `lnotab` iteration always succeeds on a nondecreasing offset
transition: the split loops bring every delta into the asserted range. -/
theorem lnotabEntry_ok (oldOff : Nat) (oldLine : Int) (off : Nat) (line : Int)
    (h : oldOff ≤ off) : ∃ bs, lnotabEntry oldOff oldLine off line = some bs := by
  unfold lnotabEntry
  cases hf1 : fillOff ((off : Int) - oldOff) with
  | mk bs1 doff =>
    dsimp only
    cases hf2 : fillNeg (line - oldLine) with
    | mk bs2 dl1 =>
      dsimp only
      cases hf3 : fillPos dl1 with
      | mk bs3 dl =>
        dsimp only
        have h1 := fillOff_spec ((off : Int) - oldOff).toNat ((off : Int) - oldOff) rfl
          (by omega)
        have h2 := fillNeg_spec (-(line - oldLine)).toNat (line - oldLine) rfl
        have h3 := fillPos_spec dl1.toNat dl1 rfl
        rw [hf1] at h1
        rw [hf2] at h2
        rw [hf3] at h3
        dsimp only at h1 h2 h3
        rw [if_pos ⟨h1.1, h1.2, h3.2 h2, h3.1⟩]
        exact ⟨_, rfl⟩

/-- The emitted `(offset, lineno)` pairs always delta-encode: offsets are
nondecreasing from the start, so every assert passes. -/
theorem emit_lnotab (d : OpDesc) (t : List (Nat × Nat)) :
    ∀ (is : List Instr) (off : Nat) (c : List Nat) (lns : List (Nat × Int)) (f : Nat),
      emitInstrs d t is off = some (c, lns, f) →
      ∀ (oldOff : Nat) (oldLine : Int), oldOff ≤ off →
        ∃ bs, makeLnotabGo lns oldOff oldLine = some bs := by
  intro is
  induction is with
  | nil =>
    intro off c lns f h oldOff oldLine hle
    simp only [emitInstrs, Option.some.injEq, Prod.mk.injEq] at h
    obtain ⟨-, h4, -⟩ := h
    subst h4
    exact ⟨[], rfl⟩
  | cons i is ih =>
    intro off c lns f h oldOff oldLine hle
    rw [emitInstrs_cons] at h
    split at h
    next => cases h
    next r hr =>
      split at h
      next => cases h
      next bs0 hbs =>
        split at h
        next => cases h
        next c2 lns2 fin2 hrec =>
          injection h with h2
          injection h2 with h3 h4
          injection h4 with h5 h6
          subst h5
          obtain ⟨e, he⟩ := lnotabEntry_ok oldOff oldLine off r.lineno hle
          obtain ⟨bs2, hbs2⟩ := ih _ _ _ _ hrec off r.lineno (by omega)
          refine ⟨e ++ bs2, ?_⟩
          rw [makeLnotabGo, he, hbs2]

end Bytecode
namespace Bytecode

/-- C1: for every valid graph, assembling, disassembling the produced
encoding back into a graph (with any line-table inputs), and assembling
again yields a byte-identical flat instruction stream: the round trip
always succeeds and reproduces `b` exactly. -/
theorem assemble_disassemble_roundtrip (d : OpDesc) (g : Code) (fl : Int)
    (b tab : List Nat) (fl2 fl3 : Int) (ls : Nat → Option Int)
    (hv : ValidGraph d g) (ha : Code.assemble d g fl = some (b, tab)) :
    ∃ g' tab', Code.disassemble d b fl2 ls = some g' ∧
      Code.assemble d g' fl3 = some (b, tab') := by
  obtain ⟨hne, hbne, hnd, hprops⟩ := hv
  -- 1. unpack the first assembly
  unfold Code.assemble at ha
  dsimp only at ha
  cases hemb : emitBlocks d (targetsGo g.blocks 0 []) g.blocks 0 with
  | none => rw [hemb] at ha; cases ha
  | some p =>
    obtain ⟨code0, lns⟩ := p
    rw [hemb] at ha
    dsimp only at ha
    cases hml : makeLnotab fl lns with
    | none => rw [hml] at ha; cases ha
    | some tab0 =>
      rw [hml] at ha
      injection ha with ha2
      injection ha2 with hb0 htab0
      subst hb0
      -- 2. the flat emit
      rw [emitBlocks_eq] at hemb
      cases hemi : emitInstrs d (targetsGo g.blocks 0 []) (flattenBlocks g.blocks) 0 with
      | none => rw [hemi] at hemb; cases hemb
      | some q =>
        obtain ⟨c0, lns0, f0⟩ := q
        rw [hemi] at hemb
        injection hemb with hemb2
        injection hemb2 with hc0 hlns0
        subst hc0
        subst hlns0
        -- 3. resolution view of the emit
        obtain ⟨rs, hrl, hreb, -⟩ := emit_resolve d _ _ _ _ _ _ hemi
        -- 4. validity facts on the flat instruction list
        have hmemflat : ∀ i ∈ flattenBlocks g.blocks, ∃ bb ∈ g.blocks, i ∈ bb.instrs := by
          intro i hi
          simp only [flattenBlocks, List.mem_flatten, List.mem_map] at hi
          obtain ⟨l, ⟨bb, hbb, rfl⟩, hil⟩ := hi
          exact ⟨bb, hbb, hil⟩
        have hfa : ∀ i ∈ flattenBlocks g.blocks,
            (i.arg.isSome = true ↔ d.haveArgument ≤ i.op) ∧
            (isJumpOp d i.op → i.arg.isSome = true) := by
          intro i hi
          obtain ⟨bb, hbb, hibb⟩ := hmemflat i hi
          obtain ⟨h1, h2, h3⟩ := hprops bb hbb i hibb
          refine ⟨h1, fun hj => ?_⟩
          have hli := h2 hj
          cases harg : i.arg with
          | none => rw [harg] at hli; exact hli.elim
          | some a => simp [harg]
        have hfl : ∀ i ∈ flattenBlocks g.blocks,
            (isJumpOp d i.op → ∃ l, i.arg = some (.labelArg l)) ∧
            (¬ isJumpOp d i.op → noLabel i.arg) := by
          intro i hi
          obtain ⟨bb, hbb, hibb⟩ := hmemflat i hi
          obtain ⟨h1, h2, h3⟩ := hprops bb hbb i hibb
          refine ⟨fun hj => ?_, h3⟩
          have hli := h2 hj
          cases harg : i.arg with
          | none => rw [harg] at hli; exact hli.elim
          | some a =>
            cases a with
            | intArg n => rw [harg] at hli; exact hli.elim
            | labelArg l => exact ⟨l, rfl⟩
        -- 5. resolved-list facts
        have hrsp := resolveList_props d _ _ _ _ hrl hfa
        -- 6. decode the bytes
        obtain ⟨is', hscan, hstrip⟩ := scan_of_reEnc d ls rs c0 0 fl2 hreb
          (fun r hr => ⟨(hrsp r hr).1, (hrsp r hr).2.1⟩)
        -- 7. facts about the decoded instructions
        have hisprops : ∀ i ∈ is',
            (i.arg.isSome = true ↔ d.haveArgument ≤ i.op) ∧
            (isJumpOp d i.op → i.arg.isSome = true) ∧ noLabel i.arg := by
          intro i hi
          have hmem : strip i ∈ rs.map strip := by
            rw [← hstrip]
            exact List.mem_map_of_mem strip hi
          obtain ⟨r, hr, hsr⟩ := List.mem_map.mp hmem
          obtain ⟨hop, harg⟩ := strip_parts r i hsr
          obtain ⟨p1, p2, p3⟩ := hrsp r hr
          rw [hop, harg] at p1 p2
          rw [harg] at p3
          exact ⟨p1, p2, p3⟩
        -- 8. the collected targets agree
        have htseq : tsOf d is' 0 = tsOf d rs 0 := tsOf_congr d is' rs 0 hstrip
        -- 9-10. each target is a block-start offset, at a decoded boundary
        have htsrc := tsOf_resolveList d _ _ _ _ hrl hfl
        have hsizes := resolveList_sizes d _ _ _ _ hrl
        have hoffeq : offsetsOf (flattenBlocks g.blocks) 0 = offsetsOf is' 0 := by
          have e1 := offsetsOf_of_sizes rs (flattenBlocks g.blocks) 0 hsizes
          have e2 := offsetsOf_congr is' rs 0 hstrip
          rw [← e1, e2]
        have htmem : ∀ T ∈ tsOf d is' 0, ∃ v0 : Nat, T = (v0 : Int) ∧
            v0 ∈ offsetsOf is' 0 := by
          intro T hT
          rw [htseq] at hT
          obtain ⟨l, v0, hlk, rfl⟩ := htsrc T hT
          have hmem : (l, v0) ∈ blockOffsets g.blocks 0 := by
            have := mem_of_lookup_eq_some _ _ _ hlk
            rw [targetsGo_eq_rev] at this
            exact List.mem_reverse.mp this
          have := (blockOffsets_mem_offsets g.blocks hbne 0 l v0 hmem).1
          exact ⟨v0, rfl, hoffeq ▸ this⟩
        -- 11. the block map of the decoded groups
        have hbm : blockMapGo (groupGo (tsOf d is' 0) is' 0 []) 0 0 =
            (((0 : Nat) : Int), 0) :: splitsOf (tsOf d is' 0) is' 0 1 :=
          blockMapGo_groupGo (tsOf d is' 0) is' [] 0 0 0 (by simp [sizeSum])
        -- 12. stage one: every target has a block label
        have htgt1 : ∀ T ∈ tsOf d is' 0,
            ∃ lbl, (blockMapGo (groupGo (tsOf d is' 0) is' 0 []) 0 0).lookup T =
              some lbl := by
          intro T hT
          obtain ⟨v0, rfl, hoffs⟩ := htmem T hT
          rw [hbm]
          by_cases h0 : v0 = 0
          · subst h0
            exact ⟨0, by simp [List.lookup]⟩
          · have hne0 : (((v0 : Nat) : Int) == ((0 : Nat) : Int)) = false := by
              simp only [beq_eq_false_iff_ne, ne_eq, Nat.cast_inj]
              exact h0
            obtain ⟨k', hk'⟩ := splitsOf_lookup (tsOf d is' 0) is' 0 1 v0 hoffs hT h0
            refine ⟨k', ?_⟩
            simp only [List.lookup, hne0]
            exact hk'
        -- 13. stage one rewrite success
        obtain ⟨is2, fin, hrw⟩ := rewrite_ok d _ is' 0
          (fun i hi => ⟨(hisprops i hi).2.1, (hisprops i hi).2.2⟩) htgt1
        -- 14. the blocks built from the groups
        have hflatb : flattenBlocks
            ((groupGo (tsOf d is' 0) is' 0 []).enum.map fun p => Block.mk p.1 p.2) =
            is' := by
          show (((groupGo (tsOf d is' 0) is' 0 []).enum.map
            fun p => Block.mk p.1 p.2).map Block.instrs).flatten = is'
          rw [List.map_map]
          have hcomp : (Block.instrs ∘ fun p : Nat × List Instr => Block.mk p.1 p.2) =
              Prod.snd := rfl
          rw [hcomp, List.enum_map_snd, groupGo_flatten]
          rfl
        have hlabs : (((groupGo (tsOf d is' 0) is' 0 []).enum.map
            fun p => Block.mk p.1 p.2).map Block.label) =
            List.range' 0 (groupGo (tsOf d is' 0) is' 0 []).length := by
          rw [List.map_map]
          have hcomp : (Block.label ∘ fun p : Nat × List Instr => Block.mk p.1 p.2) =
              Prod.fst := rfl
          rw [hcomp, List.enum_map_fst, List.range_eq_range']
        have hszs : (((groupGo (tsOf d is' 0) is' 0 []).enum.map
            fun p => Block.mk p.1 p.2).map fun b2 => sizeSum b2.instrs) =
            (groupGo (tsOf d is' 0) is' 0 []).map sizeSum := by
          rw [List.map_map]
          have hcomp : ((fun b2 : Block => sizeSum b2.instrs) ∘
              fun p : Nat × List Instr => Block.mk p.1 p.2) = sizeSum ∘ Prod.snd := rfl
          rw [hcomp, ← List.map_map, List.enum_map_snd]
        -- 15. per-block rewriting
        have hrwflat : rewriteInstrs d
            (blockMapGo (groupGo (tsOf d is' 0) is' 0 []) 0 0)
            (flattenBlocks
              ((groupGo (tsOf d is' 0) is' 0 []).enum.map fun p => Block.mk p.1 p.2))
            0 = some (is2, fin) := by
          rw [hflatb]
          exact hrw
        obtain ⟨blocks', hrwb, hfl2b, hlab2, hsz2⟩ :=
          rewriteBlocks_of_flat d _ _ 0 is2 fin hrwflat
        have hlab2' : blocks'.map Block.label =
            List.range' 0 (groupGo (tsOf d is' 0) is' 0 []).length := by
          rw [hlab2, hlabs]
        have hsz2' : (blocks'.map fun b2 => sizeSum b2.instrs) =
            (groupGo (tsOf d is' 0) is' 0 []).map sizeSum := by
          rw [hsz2, hszs]
        -- the decoded list is nonempty, so no group is empty
        have hflne : flattenBlocks g.blocks ≠ [] := by
          cases hgb : g.blocks with
          | nil => exact absurd hgb hne
          | cons b0 bs0 =>
            have hb0 : b0.instrs ≠ [] := hbne b0 (hgb ▸ List.mem_cons_self _ _)
            intro hcon
            have : flattenBlocks (b0 :: bs0) = b0.instrs ++ flattenBlocks bs0 := by
              simp [flattenBlocks]
            rw [this] at hcon
            exact hb0 (List.append_eq_nil.mp hcon).1
        have hisne : is' ≠ [] := by
          have e1 : rs.length = (flattenBlocks g.blocks).length := by
            have := congrArg List.length hsizes
            simpa using this
          have e2 : is'.length = rs.length := by
            have := congrArg List.length hstrip
            simpa using this
          have e3 : (flattenBlocks g.blocks).length = is'.length := (e2.trans e1).symm
          intro hcon
          apply hflne
          apply List.length_eq_zero.mp
          rw [e3, hcon]
          rfl
        have hgrne : ∀ gr ∈ groupGo (tsOf d is' 0) is' 0 [], gr ≠ [] := by
          cases his : is' with
          | nil => exact absurd his hisne
          | cons i1 rest =>
            intro gr hgr
            rw [groupGo] at hgr
            rw [if_neg (by simp)] at hgr
            exact groupGo_nonempty _ rest (0 + i1.size) [i1] (List.cons_ne_nil i1 []) gr hgr
        have hlast : ((groupGo (tsOf d is' 0) is' 0 []).getLastD []).isEmpty = false := by
          have hmem := getLastD_mem (groupGo (tsOf d is' 0) is' 0 []) ([] : List Instr)
            (groupGo_ne_nil (tsOf d is' 0) is' 0 [])
          have := hgrne _ hmem
          cases hgl : (groupGo (tsOf d is' 0) is' 0 []).getLastD [] with
          | nil => exact absurd hgl this
          | cons a l => rfl
        -- 16. the disassembly succeeds
        have hdis : Code.disassemble d c0 fl2 ls =
            some ⟨blocks', (groupGo (tsOf d is' 0) is' 0 []).length⟩ := by
          unfold Code.disassemble
          rw [hscan]
          dsimp only
          rw [if_neg (by rw [hlast]; exact Bool.false_ne_true)]
          rw [hrwb]
        -- 17. target lookup through the new blocks
        have hnd' : (blocks'.map Block.label).Nodup := by
          rw [hlab2', ← List.range_eq_range']
          exact List.nodup_range _
        have htgt2 : ∀ T ∈ tsOf d is' 0, ∃ lbl v,
            (blockMapGo (groupGo (tsOf d is' 0) is' 0 []) 0 0).lookup T = some lbl ∧
            (targetsGo blocks' 0 []).lookup lbl = some v ∧ (v : Int) = T := by
          intro T hT
          obtain ⟨lbl, hlbl⟩ := htgt1 T hT
          obtain ⟨v, rfl, hmemb⟩ := blockMapGo_inv _ blocks' 0 0 hlab2' hsz2' T lbl hlbl
          exact ⟨lbl, v, hlbl, targetsGo_lookup blocks' 0 lbl v hnd' hmemb, rfl⟩
        -- 18. rewrite and re-emit across the new target table
        have hreis : reEnc is' = some c0 := by
          rw [reEnc_congr is' rs hstrip]
          exact hreb
        obtain ⟨is2', hrw', lns2, hem'⟩ :=
          rewrite_emit d _ (targetsGo blocks' 0 []) is' 0 c0 hreis hisprops htgt2
        rw [hrw] at hrw'
        injection hrw' with hrw2
        injection hrw2 with his2 hfin2
        subst his2
        -- 19. the second assembly
        obtain ⟨tab', htab'⟩ := emit_lnotab d (targetsGo blocks' 0 []) _ _ _ _ _ hem'
          0 fl3 (Nat.le_refl 0)
        refine ⟨⟨blocks', (groupGo (tsOf d is' 0) is' 0 []).length⟩, tab', hdis, ?_⟩
        unfold Code.assemble
        dsimp only
        rw [emitBlocks_eq, hfl2b, hem']
        dsimp only [Option.map]
        have hmk : makeLnotab fl3 lns2 = some tab' := htab'
        rw [hmk]



/-- Witness for C1: the two-block graph `gW` (an absolute jump to the
second block) assembles to `[113, 3, 0, 83]`, and the round trip applies
to it with arbitrary `firstlineno` inputs. -/
theorem assemble_disassemble_roundtrip_witness :
    ValidGraph descStd gW ∧
    Code.assemble descStd gW 1 = some ([113, 3, 0, 83], [3, 0]) ∧
    ∃ g' tab', Code.disassemble descStd [113, 3, 0, 83] 7 lsNone = some g' ∧
      Code.assemble descStd g' 9 = some ([113, 3, 0, 83], tab') := by
  have h1 : ValidGraph descStd gW := by decide
  have h2 : Code.assemble descStd gW 1 = some ([113, 3, 0, 83], [3, 0]) := by
    simp [Code.assemble, emitBlocks, emitInstrs, targetsGo, offAfter, resolveInstr,
      Instr.assemble, Instr.size, Instr.replace_arg, makeLnotab, makeLnotabGo,
      lnotabEntry, fillOff, fillNeg, fillPos, descStd, gW, List.lookup]
    decide
  exact ⟨h1, h2,
    assemble_disassemble_roundtrip descStd gW 1 [113, 3, 0, 83] [3, 0] 7 9 lsNone h1 h2⟩

end Bytecode
